import Mathlib

/-!
Verification development for the `rv` dependency manager.

The file embeds, as executable Lean definitions, the parts of the program
that the verified properties talk about:

* `src/add.rs`: `add_packages` (editing the `[project] dependencies` array of
  the configuration document) and `scan_r_files_for_packages` (collecting
  package names mentioned by `library(...)` / `require(...)` calls in R files).
* the resolver / lockfile / sync core (`Resolver`, `Resolution`, `Lockfile`,
  `BuildPlan`): these modules are declared by `src/lib.rs` but their sources
  are not part of this tree, so they are modelled from the specification
  (each such definition carries a doc comment starting with
  `Modelled from the spec:`).

Theorems about the embeddings follow all definitions.
-/

/-! ### Generic list helpers -/

/-- Position of the first occurrence of `a` in a list (length if absent). -/
def pos {α : Type} [DecidableEq α] (a : α) : List α → Nat
  | [] => 0
  | x :: xs => if x = a then 0 else pos a xs + 1

/-- First-match association-list lookup (the `mapping name → value` reading
used by `Resolution.graph`, `Library` and the repository databases). -/
def alookup {α : Type} (n : String) : List (String × α) → Option α
  | [] => none
  | (k, v) :: rest => if k = n then some v else alookup n rest

/-- Key list of an association list. -/
def keysOf {α : Type} (l : List (String × α)) : List String := l.map (·.1)

/-- Removal of consecutive duplicates, keeping the first of each run; this is
the semantics of Rust `Vec::dedup` used by `scan_r_files_for_packages`. -/
def dedupConsecGo {α : Type} [DecidableEq α] (prev : α) : List α → List α
  | [] => []
  | y :: ys => if y = prev then dedupConsecGo prev ys else y :: dedupConsecGo y ys

/-- Removal of consecutive duplicates (Rust `Vec::dedup`). -/
def dedupConsec {α : Type} [DecidableEq α] : List α → List α
  | [] => []
  | x :: xs => x :: dedupConsecGo x xs

/-- Lexicographic comparison of character lists by code point; on UTF-8
data this coincides with the byte-wise `Ord` by which Rust compares and
sorts `String`s. -/
def charsLe : List Char → List Char → Bool
  | [], _ => true
  | _ :: _, [] => false
  | a :: as, b :: bs => if a < b then true else if b < a then false else charsLe as bs

/-- The Rust `String` order. -/
def strLe (a b : String) : Bool := charsLe a.data b.data

instance : DecidableRel (fun a b : String => strLe a b = true) :=
  fun _ _ => instDecidableEqBool _ _

/-- Canonical sorted duplicate-free form of a list of strings: sort
ascending, then drop consecutive duplicates. -/
def sortDedup (l : List String) : List String :=
  dedupConsec (List.insertionSort (fun a b => strLe a b = true) l)

/-! ### Embedding of `src/add.rs` -/

/-- A `toml_edit` array value as far as `add_packages` inspects it: a string,
an inline table (list of key/value entries), or anything else. -/
inductive TomlValue where
  | vstr (s : String)
  | vtable (entries : List (String × TomlValue))
  | vother
deriving Repr

/-- Lookup of a key in an inline table (`InlineTable::get`). -/
def tget (k : String) : List (String × TomlValue) → Option TomlValue
  | [] => none
  | (k2, v) :: rest => if k2 = k then some v else tget k rest

/-- The `Value::as_str` projection. -/
def asStr : TomlValue → Option String
  | .vstr s => some s
  | _ => none

/-- The closure of the `filter_map` in `add_packages` collecting dependency
names: a plain string yields itself, an inline table yields its string-valued
`name` entry, other values yield nothing. -/
def depNameOf : TomlValue → Option String
  | .vstr s => some s
  | .vtable t => (tget "name" t).bind asStr
  | .vother => none

/-- The `dependencies` entry of the `[project]` table: either a TOML array or
some non-array item (on which `as_array_mut().unwrap()` panics). -/
inductive DepsItem where
  | arr (values : List TomlValue)
  | nonArray
deriving Repr

/-- The `[project]` table of a configuration document, as far as
`add_packages` inspects it: an optional `dependencies` entry. -/
structure ProjectTable where
  dependencies : Option DepsItem
deriving Repr

/-- A configuration document (`toml_edit::DocumentMut`) as far as
`add_packages` inspects it; `project = none` covers both a missing `project`
key and a non-table `project` item, on which `as_table_mut().unwrap()`
panics. Formatting state (decor prefixes/suffixes, trailing comma) carries no
package content and is not modelled. -/
structure DocumentMut where
  project : Option ProjectTable
deriving Repr

/-- The `get_mut_array` helper of `src/add.rs`: fetch the `[project]`
`dependencies` array, inserting an empty array when the entry is absent.
`none` models a panic of one of the two `unwrap()` calls (missing/non-table
`project`, or a non-array `dependencies` item). -/
def get_mut_array (doc : DocumentMut) : Option (List TomlValue) :=
  match doc.project with
  | none => none
  | some pt =>
    match pt.dependencies with
    | none => some []
    | some (.arr vs) => some vs
    | some .nonArray => none

/-- The dependency names collected by `add_packages` before its loop
(`config_dep_names`). -/
def config_dep_names (deps : List TomlValue) : List String :=
  deps.filterMap depNameOf

/-- The `for d in packages` loop of `add_packages`: push `d` as a plain
string unless its name was already present in the names collected before the
loop. -/
def add_loop (names : List String) : List TomlValue → List String → List TomlValue
  | deps, [] => deps
  | deps, d :: rest =>
      add_loop names (if d ∈ names then deps else deps ++ [TomlValue.vstr d]) rest

/-- The `add_packages` function of `src/add.rs`, modelled by its effect on
the dependencies array. `some arr` models `Ok(())` with the document's
dependencies array mutated to `arr`; `none` models a panic inside
`get_mut_array` (the function never constructs an `AddError`). -/
def add_packages (doc : DocumentMut) (packages : List String) : Option (List TomlValue) :=
  match get_mut_array doc with
  | none => none
  | some deps => some (add_loop (config_dep_names deps) deps packages)

/-! ### Embedding of `scan_r_files_for_packages` (src/add.rs)

The regex `(?:library|require)\(\s*["']?([A-Za-z0-9_.]+)["']?\s*\)` is
embedded as a deterministic scanner.  Backtracking never helps this pattern:
the capture class excludes quotes, whitespace and the closing parenthesis, so
greedy maximal munch is exact.  `\s` is modelled by `Char.isWhitespace`
(space, tab, carriage return, line feed). -/

/-- Characters of the capture class `[A-Za-z0-9_.]`. -/
def isPkgChar (c : Char) : Bool := c.isAlpha || c.isDigit || c = '_' || c = '.'

/-- Consume one optional quote character, `["']?` (39 is the apostrophe). -/
def skipQuote : List Char → List Char
  | [] => []
  | c :: rest => if c = '"' ∨ c = Char.ofNat 39 then rest else c :: rest

/-- Match `\s*["']?([A-Za-z0-9_.]+)["']?\s*\)` at the head of the input,
returning the capture and the input after the match. -/
def matchAfterParen (cs : List Char) : Option (String × List Char) :=
  let cs2 := skipQuote (cs.dropWhile (·.isWhitespace))
  let ident := cs2.takeWhile isPkgChar
  if ident.isEmpty then none
  else
    match (skipQuote (cs2.dropWhile isPkgChar)).dropWhile (·.isWhitespace) with
    | ')' :: rest => some (String.mk ident, rest)
    | _ => none

/-- Match the alternation `(?:library|require)\(` at the head of the input. -/
def matchKeyword (cs : List Char) : Option (List Char) :=
  if cs.take 8 = "library(".data then some (cs.drop 8)
  else if cs.take 8 = "require(".data then some (cs.drop 8)
  else none

/-- Match the whole pattern at the head of the input. -/
def matchCall (cs : List Char) : Option (String × List Char) :=
  (matchKeyword cs).bind matchAfterParen

/-- Leftmost, non-overlapping scan of one line (`Regex::captures_iter`): try
the pattern at each position, resuming after the end of each match.  The
fuel argument only bounds recursion; every step consumes at least one
character, so fuel equal to the input length is never exhausted. -/
def scanAux : Nat → List Char → List String
  | 0, _ => []
  | _ + 1, [] => []
  | fuel + 1, c :: rest =>
    match matchCall (c :: rest) with
    | some (pkg, rest2) => pkg :: scanAux fuel rest2
    | none => scanAux fuel rest

/-- All captures of the pattern on one line, leftmost first. -/
def lineCaptures (line : List Char) : List String := scanAux line.length line

/-- Split on line feeds, accumulator-reversed helper. -/
def splitLinesAux : List Char → List Char → List (List Char)
  | acc, [] => [acc.reverse]
  | acc, c :: rest =>
    if c = '\n' then acc.reverse :: splitLinesAux [] rest
    else splitLinesAux (c :: acc) rest

/-- Strip one trailing carriage return (part of Rust `str::lines`). -/
def stripCR (l : List Char) : List Char :=
  match l.reverse with
  | '\r' :: rest => rest.reverse
  | _ => l

/-- The lines of a file content (Rust `str::lines`): split at line feeds,
strip a carriage return before each split point, and do not produce a final
empty line for a trailing line feed. -/
def linesOf (content : String) : List (List Char) :=
  if content.data.getLast? = some '\n' then
    ((splitLinesAux [] content.data).dropLast).map stripCR
  else
    (splitLinesAux [] content.data).map stripCR

/-- A line whose first non-whitespace character is `#` (`trim_start`
followed by `starts_with('#')`); such lines are skipped before matching. -/
def isCommentLine (line : List Char) : Bool :=
  match line.dropWhile (·.isWhitespace) with
  | '#' :: _ => true
  | _ => false

/-- Captures collected from one file content: every non-comment line's
captures, in line order. -/
def fileCaptures (content : String) : List String :=
  ((linesOf content).filter (fun l => !isCommentLine l)).foldr
    (fun line acc => lineCaptures line ++ acc) []

/-- Content-level core of `scan_r_files_for_packages`: given the contents of
the scanned `.R` files (directory walking, hidden-file and `rv` exclusion
and I/O live outside this model and only decide which contents appear in the
input list), collect the captures of every non-comment line, sort them and
remove consecutive duplicates.  The returned list is the `Ok` value of the
Rust function. -/
def scan_r_files_for_packages (contents : List String) : List String :=
  dedupConsec (List.insertionSort (fun a b => strLe a b = true)
    (contents.foldr (fun c acc => fileCaptures c ++ acc) []))

/-! ### Modelled resolver / lockfile / sync core

The modules `resolver`, `lockfile`, `sync`, `package`, `repository` and
`library` are declared and re-exported by `src/lib.rs` but their sources are
not part of this tree, so the definitions below are modelled from the
specification (§3–§4.5). -/

/-- Modelled from the spec: `Version` — dotted numeric components (§3). -/
abbrev Version := List Nat

/-- All components zero (a version tail equal to the missing tail). -/
def allZero : List Nat → Bool
  | [] => true
  | a :: as => decide (a = 0) && allZero as

/-- Modelled from the spec: component-wise version comparison with missing
trailing components treated as zero (§3). -/
def verCmp : Version → Version → Ordering
  | [], bs => if allZero bs then .eq else .lt
  | a :: as, [] => if allZero (a :: as) then .eq else .gt
  | a :: as, b :: bs =>
    if a < b then .lt else if b < a then .gt else verCmp as bs

/-- Version order `a ≤ b` induced by `verCmp`. -/
def verLe (a b : Version) : Bool := !decide (verCmp a b = Ordering.gt)

/-- Modelled from the spec: `VersionRequirement` (§3) — one of Exact,
AtLeast, closed Range, Any, PinnedRef. -/
inductive VersionRequirement where
  | exact (v : Version)
  | atLeast (v : Version)
  | range (lo hi : Version)
  | any
  | pinnedRef (r : String)
deriving DecidableEq, Repr

/-- Modelled from the spec: the pure total `satisfies` predicate (§4.1);
`Range` bounds are closed.  `PinnedRef` pins a version-control reference
rather than constraining the numeric version, so it accepts any version. -/
def satisfies : VersionRequirement → Version → Bool
  | .exact v, w => decide (verCmp v w = Ordering.eq)
  | .atLeast v, w => !decide (verCmp w v = Ordering.lt)
  | .range lo hi, w =>
      (!decide (verCmp w lo = Ordering.lt)) && (!decide (verCmp hi w = Ordering.lt))
  | .any, _ => true
  | .pinnedRef _, _ => true

/-- Conjunction of an accumulated constraint set (§4.3 step 1). -/
def satisfiesAll (reqs : List VersionRequirement) (v : Version) : Bool :=
  reqs.all (fun r => satisfies r v)

/-- Modelled from the spec: the `Source` tagged variant (§3). -/
inductive Source where
  | repository (repo_id : String) (version : Version)
  | versionControl (url : String) (vref : String) (resolved_sha : String)
  | localPath (path : String)
deriving DecidableEq, Repr

/-- Modelled from the spec: a dependency request, name plus the requirement
its requirer contributes (§3 `UnresolvedDependency`; §4.3 step 4). -/
structure Dep where
  name : String
  req : VersionRequirement
deriving DecidableEq, Repr

/-- Modelled from the spec: `ResolvedDependency` (§3).  Each
`direct_dependencies` edge keeps the requirement this package contributes to
that dependency (§4.3 step 4 pushes each direct dependency "contributing a
new constraint", including for entries reused from the seed lockfile); the
spec's plain name set is `direct_dependencies.map Dep.name`. -/
structure ResolvedDependency where
  name : String
  version : Version
  source : Source
  content_hash : String
  direct_dependencies : List Dep
  is_binary : Bool
deriving DecidableEq, Repr

/-- Direct dependency names of a resolved package (§3). -/
def depNames (rd : ResolvedDependency) : List String :=
  rd.direct_dependencies.map Dep.name

/-- Modelled from the spec: `Resolution` — root name set plus a graph
mapping name → ResolvedDependency (§3), the mapping realized as an
association list read through `alookup`. -/
structure Resolution where
  root : List String
  graph : List (String × ResolvedDependency)
deriving DecidableEq, Repr

/-- Modelled from the spec: a repository `Candidate` (§4.2), together with
the platform a binary build targets (§4.1 `is_binary_package`). -/
structure Candidate where
  version : Version
  source : Source
  direct_dependencies : List Dep
  content_hash : String
  is_binary : Bool
  platform : String
deriving DecidableEq, Repr

/-- Modelled from the spec: `RepositoryDatabase` (§4.2): per-package
candidate lists in descending-version order, with repository identity. -/
structure Repo where
  id : String
  db : List (String × List Candidate)
deriving DecidableEq, Repr

/-- Candidates a repository offers for a package; empty when the repository
has no entry (§4.2). -/
def candidatesOf (r : Repo) (p : String) : List Candidate :=
  (alookup p r.db).getD []

/-- Modelled from the spec: `Lockfile` (§3): repositories as ordered
(name, url) pairs, platform, and Resolution entries sorted by name. -/
structure Lockfile where
  repositories : List (String × String)
  platform : String
  packages : List ResolvedDependency
deriving DecidableEq, Repr

/-- Modelled from the spec: the fatal `ResolutionError` taxonomy (§7). -/
inductive ResolutionError where
  | notFound (package : String)
  | conflict (package : String) (requirers : List String)
  | cycle (path : List String)
  | divergence
deriving DecidableEq, Repr

/-- Modelled from the spec: candidate eligibility (§4.1, §4.3 step 3): a
binary candidate is eligible only when its platform matches the target, and
the candidate must satisfy every accumulated constraint. -/
def eligibleSat (plat : String) (reqs : List VersionRequirement) (c : Candidate) : Bool :=
  (!c.is_binary || decide (c.platform = plat)) && satisfiesAll reqs c.version

/-- Modelled from the spec: best-candidate selection (§4.3 step 3): iterate
repositories in priority order; within the first repository offering an
eligible satisfying candidate pick its first such entry — the highest
satisfying version, by the descending order of §4.2.  `NotFound` when no
repository offers any version at all (§7), `Conflict` when candidates exist
but none satisfies. -/
def selectBest (repos : List Repo) (p : String) (sat : Candidate → Bool)
    (requirers : List String) : Except ResolutionError Candidate :=
  if repos.all (fun r => (candidatesOf r p).isEmpty) then .error (.notFound p)
  else
    match repos.findSome? (fun r => (candidatesOf r p).find? sat) with
    | some c => .ok c
    | none => .error (.conflict p requirers)

/-- Modelled from the spec: the `ResolvedDependency` recorded for a selected
candidate (§4.3 step 3). -/
def rdOfCandidate (p : String) (c : Candidate) : ResolvedDependency :=
  { name := p, version := c.version, source := c.source,
    content_hash := c.content_hash,
    direct_dependencies := c.direct_dependencies, is_binary := c.is_binary }

/-- Modelled from the spec: the accumulated constraint set of `p` (§4.3
steps 1 and 4): requirements contributed by the root dependencies on `p`
and by every currently selected package depending on `p`. -/
def reqsFor (roots : List Dep) (sel : List (String × ResolvedDependency))
    (p : String) : List VersionRequirement :=
  (roots.filter (fun d => decide (d.name = p))).map Dep.req
    ++ sel.foldr (fun q acc =>
        ((q.2.direct_dependencies.filter (fun d => decide (d.name = p))).map Dep.req)
          ++ acc) []

/-- Modelled from the spec: the requirer names of `p` for diagnostics (§4.3
step 1, §7 `ConflictError`), canonically ordered. -/
def requirersFor (roots : List Dep) (sel : List (String × ResolvedDependency))
    (p : String) : List String :=
  sortDedup ((if roots.any (fun d => decide (d.name = p)) then ["root"] else [])
    ++ sel.foldr (fun q acc =>
        (if q.2.direct_dependencies.any (fun d => decide (d.name = p))
         then [q.1] else []) ++ acc) [])

/-- Modelled from the spec: the canonically ordered worklist (§4.3 steps 2
and 4 and the determinism note): root names together with every selected
package and its direct dependency names, sorted and deduplicated. -/
def canonNames (roots : List Dep) (sel : List (String × ResolvedDependency)) :
    List String :=
  sortDedup (roots.map Dep.name
    ++ sel.foldr (fun q acc => (q.1 :: depNames q.2) ++ acc) [])

/-- Modelled from the spec: the seed-lockfile entry for `p` (§4.3 step 3). -/
def lockEntry (lock : Option Lockfile) (p : String) : Option ResolvedDependency :=
  match lock with
  | none => none
  | some lf => lf.packages.find? (fun rd => decide (rd.name = p))

/-- Modelled from the spec: selection without lockfile reuse (§4.3 steps 3
and 5): keep the current selection while it satisfies the accumulated
constraint set, otherwise re-run best-candidate selection. -/
def decideFresh (repos : List Repo) (plat : String)
    (sel : List (String × ResolvedDependency)) (p : String)
    (reqs : List VersionRequirement) (requirers : List String) :
    Except ResolutionError ResolvedDependency :=
  match alookup p sel with
  | some cur =>
    if satisfiesAll reqs cur.version then .ok cur
    else (selectBest repos p (eligibleSat plat reqs) requirers).map (rdOfCandidate p)
  | none => (selectBest repos p (eligibleSat plat reqs) requirers).map (rdOfCandidate p)

/-- Modelled from the spec: one selection decision (§4.3 steps 3 and 5):
reuse the locked entry when present, not force-excluded, and satisfying the
accumulated constraint set; otherwise decide afresh. -/
def decideOne (roots : List Dep) (repos : List Repo) (lock : Option Lockfile)
    (plat : String) (excl : List String)
    (sel : List (String × ResolvedDependency)) (p : String) :
    Except ResolutionError ResolvedDependency :=
  let reqs := reqsFor roots sel p
  let requirers := requirersFor roots sel p
  match lockEntry lock p with
  | some lrd =>
    if ¬ p ∈ excl ∧ satisfiesAll reqs lrd.version then .ok lrd
    else decideFresh repos plat sel p reqs requirers
  | none => decideFresh repos plat sel p reqs requirers

/-- Modelled from the spec: one full sweep over a worklist of package names
(§4.3 step 6 iteration body), recording one decision per name. -/
def decideAll (roots : List Dep) (repos : List Repo) (lock : Option Lockfile)
    (plat : String) (excl : List String)
    (sel : List (String × ResolvedDependency)) :
    List String → Except ResolutionError (List (String × ResolvedDependency))
  | [] => .ok []
  | p :: rest =>
    match decideOne roots repos lock plat excl sel p with
    | .error e => .error e
    | .ok rd =>
      match decideAll roots repos lock plat excl sel rest with
      | .error e => .error e
      | .ok out => .ok ((p, rd) :: out)

/-- Modelled from the spec: one resolver sweep over the canonical worklist. -/
def resolvePass (roots : List Dep) (repos : List Repo) (lock : Option Lockfile)
    (plat : String) (excl : List String)
    (sel : List (String × ResolvedDependency)) :
    Except ResolutionError (List (String × ResolvedDependency)) :=
  decideAll roots repos lock plat excl sel (canonNames roots sel)

/-- Modelled from the spec: fixed-point iteration (§4.3 step 6): repeat
passes until one leaves the selections unchanged; `DivergenceError` when the
attempt bound is exhausted. -/
def resolveLoop (roots : List Dep) (repos : List Repo) (lock : Option Lockfile)
    (plat : String) (excl : List String) :
    Nat → List (String × ResolvedDependency) →
      Except ResolutionError (List (String × ResolvedDependency))
  | 0, _ => .error .divergence
  | fuel + 1, sel =>
    match resolvePass roots repos lock plat excl sel with
    | .error e => .error e
    | .ok sel2 =>
      if sel2 = sel then .ok sel
      else resolveLoop roots repos lock plat excl fuel sel2

/-- Modelled from the spec: the bound on total selection attempts (§4.3
step 6) — distinct package count × max total candidates, each padded by one
so the empty fixed point stays reachable. -/
def fuelBound (roots : List Dep) (repos : List Repo) : Nat :=
  (1 + (sortDedup (roots.map Dep.name
      ++ repos.foldr (fun r acc => keysOf r.db ++ acc) [])).length)
    * (1 + repos.foldr (fun r acc => r.db.foldr (fun e acc2 => e.2.length + acc2) acc) 0)

/-- Modelled from the spec: one round of the Kahn-style removal behind cycle
detection and topological ordering (§4.3 step 7, §4.5): packages not yet
ordered all of whose in-graph direct dependencies are already ordered. -/
def kahnStep (g : List (String × ResolvedDependency)) (done : List String) :
    List String :=
  g.filterMap (fun e =>
    if decide (e.1 ∈ done) then none
    else if (depNames e.2).all
        (fun d => !decide (d ∈ keysOf g) || decide (d ∈ done)) then some e.1
    else none)

/-- Iterate `kahnStep` until no package becomes removable. -/
def kahnLoop (g : List (String × ResolvedDependency)) :
    Nat → List String → List String
  | 0, done => done
  | n + 1, done =>
    let fresh := kahnStep g done
    if fresh.isEmpty then done else kahnLoop g n (done ++ fresh)

/-- Modelled from the spec: dependencies-first topological order of a
dependency graph (§4.5); on an acyclic graph it enumerates every package. -/
def topoOrder (g : List (String × ResolvedDependency)) : List String :=
  kahnLoop g g.length []

/-- Modelled from the spec: the cycle check of §4.3 step 7: the graph is
accepted exactly when the topological order reaches every package. -/
def kahnComplete (g : List (String × ResolvedDependency)) : Bool :=
  (keysOf g).all (fun n => decide (n ∈ topoOrder g))

/-- Modelled from the spec: the Resolver (§4.3): run the fixed-point
iteration from the root dependencies, then cycle detection; the Resolution
carries the canonically ordered root name set; no partial Resolution is
returned on error (§7). -/
def resolve (roots : List Dep) (repos : List Repo) (lock : Option Lockfile)
    (plat : String) (excl : List String) : Except ResolutionError Resolution :=
  match resolveLoop roots repos lock plat excl (fuelBound roots repos) [] with
  | .error e => .error e
  | .ok sel =>
    if kahnComplete sel then
      .ok { root := sortDedup (roots.map Dep.name), graph := sel }
    else .error (.cycle ((keysOf sel).filter (fun n => !decide (n ∈ topoOrder sel))))

/-- Dependency edge of a resolution graph: `a` directly depends on `b`. -/
def edgeRel (g : List (String × ResolvedDependency)) (a b : String) : Prop :=
  ∃ rd, alookup a g = some rd ∧ b ∈ depNames rd

instance : DecidableRel (fun a b : ResolvedDependency => strLe a.name b.name = true) :=
  fun _ _ => instDecidableEqBool _ _

/-- Modelled from the spec: `Lockfile::save` (§4.4): record repository
provenance and platform, and the Resolution's entries sorted by name for
order-stable output. -/
def save (r : Resolution) (repositories : List (String × String)) (plat : String) :
    Lockfile :=
  { repositories := repositories, platform := plat,
    packages := List.insertionSort (fun a b => strLe a.name b.name = true)
      (r.graph.map (·.2)) }

/-- Modelled from the spec: per-entry validation of `Lockfile::load` (§4.4):
version and content hash must be nonempty and a repository-sourced entry
must reference a repository recorded in the lockfile. -/
def validRd (repoNames : List String) (rd : ResolvedDependency) : Bool :=
  (!rd.version.isEmpty) && (!decide (rd.content_hash = "")) &&
    (match rd.source with
     | .repository rid _ => decide (rid ∈ repoNames)
     | _ => true)

/-- Modelled from the spec: `LockfileCorruptError` (§7). -/
structure LockfileCorruptError where
  field : String
  reason : String
deriving DecidableEq, Repr

/-- Modelled from the spec: `Lockfile::load` (§4.4): validate every entry,
failing with `LockfileCorruptError` on the first invalid one; rebuild the
Resolution graph keyed by entry name.  The root set is not persisted by the
format (it is recoverable from the project configuration), so the loaded
Resolution carries an empty root set. -/
def load (lf : Lockfile) : Except LockfileCorruptError Resolution :=
  match lf.packages.find? (fun rd => !validRd (lf.repositories.map (·.1)) rd) with
  | some rd => .error { field := rd.name, reason := "invalid lockfile entry" }
  | none => .ok { root := [], graph := lf.packages.map (fun rd => (rd.name, rd)) }

/-- Modelled from the spec: an installed-library entry (§3 `Library`:
version, content hash, path), extended with the installed package's direct
dependency names.  What is missing from the spec: §4.5 orders Remove steps
so that dependents are removed before the dependencies they used, and §8's
removal example removes `D` before the `E` it depended on, yet the §3/§6
Library record `{version, content_hash, path}` carries no dependency data
for removed packages (they are absent from the Resolution's graph), so the
dependency names of installed packages are added here to realize those
words. -/
structure LibEntry where
  version : Version
  content_hash : String
  path : String
  direct_dependencies : List String
deriving DecidableEq, Repr

/-- Modelled from the spec: the `BuildStep` tagged variant (§3). -/
inductive BuildStep where
  | install (name : String) (version : Version) (source : Source)
  | update (name : String) (vfrom vto : Version)
  | remove (name : String)
deriving DecidableEq, Repr

/-- Modelled from the spec: the per-package diff rule of Sync (§4.5) for a
resolved package: Install when absent from the Library, Update when present
with differing version or content hash, no step when present identically. -/
def diffStep (g : List (String × ResolvedDependency))
    (lib : List (String × LibEntry)) (n : String) : Option BuildStep :=
  match alookup n g with
  | none => none
  | some rd =>
    match alookup n lib with
    | none => some (.install n rd.version rd.source)
    | some e =>
      if decide (e.version = rd.version) && decide (e.content_hash = rd.content_hash)
      then none
      else some (.update n e.version rd.version)

/-- The install/update ordering domain: the topological order of the graph,
extended with any leftover package names so the diff rule covers every
resolved package even on a graph violating the acyclicity invariant. -/
def fullOrd (g : List (String × ResolvedDependency)) : List String :=
  topoOrder g ++ (keysOf g).filter (fun n => !decide (n ∈ topoOrder g))

/-- A graph node for an installed package, as recorded by the Library
snapshot; only its name and dependency edges matter to the ordering. -/
def libRd (n : String) (e : LibEntry) : ResolvedDependency :=
  { name := n, version := e.version, source := .localPath e.path,
    content_hash := e.content_hash,
    direct_dependencies := e.direct_dependencies.map
      (fun d => { name := d, req := .any }),
    is_binary := false }

/-- Modelled from the spec: the dependency graph of the packages a pruning
sync removes (§4.5) — the packages present in the Library and absent from
the Resolution, in canonical name order, with the dependency edges the
Library records for them. -/
def removedGraph (res : Resolution) (lib : List (String × LibEntry)) :
    List (String × ResolvedDependency) :=
  ((sortDedup (keysOf lib)).filter
      (fun n => !decide (n ∈ keysOf res.graph))).filterMap
    (fun n => (alookup n lib).map (fun e => (n, libRd n e)))

/-- Modelled from the spec: `Sync` producing a `BuildPlan` (§4.5):
Install/Update steps in dependencies-first topological order of the
Resolution's graph, followed by Remove steps — packages present in the
Library, absent from the Resolution, when prune is enabled — in the reverse
of the dependencies-first topological order of the removed packages' own
dependency graph, so a dependent is removed before the dependencies it used
(§8 removal example: `D` is removed before the `E` it depended on). -/
def sync (res : Resolution) (lib : List (String × LibEntry)) (prune : Bool) :
    List BuildStep :=
  (fullOrd res.graph).filterMap (diffStep res.graph lib)
    ++ (if prune then
          (fullOrd (removedGraph res lib)).reverse.map .remove
        else [])

/-- Name of an Install or Update step. -/
def instName : BuildStep → Option String
  | .install n _ _ => some n
  | .update n _ _ => some n
  | .remove _ => none

/-- Name of a Remove step. -/
def remName : BuildStep → Option String
  | .remove n => some n
  | _ => none

/-- Names of the Install/Update steps of a plan, in plan order. -/
def installOrder (plan : List BuildStep) : List String := plan.filterMap instName

/-- Names of the Remove steps of a plan, in plan order. -/
def removeOrder (plan : List BuildStep) : List String := plan.filterMap remName

/-- Package a step is about. -/
def stepName : BuildStep → String
  | .install n _ _ => n
  | .update n _ _ => n
  | .remove n => n

/-- Invariant of the Kahn ordering: the ordered names are unique, drawn from
the graph, and every in-graph direct dependency of an ordered package is
ordered strictly earlier. -/
def kahnInv (g : List (String × ResolvedDependency)) (done : List String) : Prop :=
  done.Nodup ∧ (∀ x ∈ done, x ∈ keysOf g)
    ∧ ∀ a rd b, a ∈ done → alookup a g = some rd → b ∈ depNames rd →
        b ∈ keysOf g → b ∈ done ∧ pos b done < pos a done

/-- Decidable equality of `Except` results, used to evaluate resolver runs
in witnesses. -/
instance {e a : Type} [DecidableEq e] [DecidableEq a] : DecidableEq (Except e a) := fun x y =>
  match x, y with
  | .error e1, .error e2 =>
    if h : e1 = e2 then .isTrue (by rw [h]) else .isFalse (fun hc => h (Except.error.inj hc))
  | .error _, .ok _ => .isFalse (fun hc => Except.noConfusion hc)
  | .ok _, .error _ => .isFalse (fun hc => Except.noConfusion hc)
  | .ok a1, .ok a2 =>
    if h : a1 = a2 then .isTrue (by rw [h]) else .isFalse (fun hc => h (Except.ok.inj hc))

/-! ### Concrete fixtures used by witnesses -/

/-- Candidate `A@1.2` depending on `B >= 2` (spec §8 example). -/
def exCandA : Candidate :=
  { version := [1, 2], source := .repository "cran" [1, 2],
    direct_dependencies := [{ name := "B", req := .atLeast [2] }],
    content_hash := "hA", is_binary := false, platform := "linux" }

/-- Candidate `B@2.1` (spec §8 example). -/
def exCandB21 : Candidate :=
  { version := [2, 1], source := .repository "cran" [2, 1],
    direct_dependencies := [], content_hash := "hB21",
    is_binary := false, platform := "linux" }

/-- Candidate `B@1.9` (spec §8 example). -/
def exCandB19 : Candidate :=
  { version := [1, 9], source := .repository "cran" [1, 9],
    direct_dependencies := [], content_hash := "hB19",
    is_binary := false, platform := "linux" }

/-- Candidate `C@3` with no dependencies. -/
def exCandC : Candidate :=
  { version := [3], source := .repository "cran" [3],
    direct_dependencies := [], content_hash := "hC",
    is_binary := false, platform := "linux" }

/-- The repository of the spec §8 example, extended with a package `C`. -/
def exRepo : Repo :=
  { id := "cran",
    db := [("A", [exCandA]), ("B", [exCandB21, exCandB19]), ("C", [exCandC])] }

/-- Root dependency list of the spec §8 example: `A >= 1.0`. -/
def exRoots : List Dep := [{ name := "A", req := .atLeast [1, 0] }]

/-- The resolved entry for `A` in the §8 example. -/
def exRdA : ResolvedDependency :=
  { name := "A", version := [1, 2], source := .repository "cran" [1, 2],
    content_hash := "hA",
    direct_dependencies := [{ name := "B", req := .atLeast [2] }],
    is_binary := false }

/-- The resolved entry for `B` in the §8 example. -/
def exRdB : ResolvedDependency :=
  { name := "B", version := [2, 1], source := .repository "cran" [2, 1],
    content_hash := "hB21", direct_dependencies := [], is_binary := false }

/-- The expected Resolution of the §8 example: `A@1.2`, `B@2.1`. -/
def exRes : Resolution :=
  { root := ["A"], graph := [("A", exRdA), ("B", exRdB)] }

/-- A library snapshot with an outdated `B` and the stale pair of the §8
removal example: `D`, which depends on `E`, and `E`. -/
def exLib : List (String × LibEntry) :=
  [("B", { version := [1, 9], content_hash := "hB19", path := "lib/B",
           direct_dependencies := [] }),
   ("D", { version := [1], content_hash := "hD", path := "lib/D",
           direct_dependencies := ["E"] }),
   ("E", { version := [1], content_hash := "hE", path := "lib/E",
           direct_dependencies := [] })]

/-- The Library entry of the stale package `D` in `exLib`. -/
def exLibD : LibEntry :=
  { version := [1], content_hash := "hD", path := "lib/D",
    direct_dependencies := ["E"] }

/-- Candidate `B@1.5` offered by the priority repository. -/
def exCandB15 : Candidate :=
  { version := [1, 5], source := .repository "first" [1, 5],
    direct_dependencies := [], content_hash := "hB15",
    is_binary := false, platform := "linux" }

/-- Candidate `B@9` offered by the lower-priority repository. -/
def exCandB9 : Candidate :=
  { version := [9], source := .repository "second" [9],
    direct_dependencies := [], content_hash := "hB9",
    is_binary := false, platform := "linux" }

/-- A repository whose only `B` candidate is `B@1.5`. -/
def exRepoLow : Repo := { id := "first", db := [("B", [exCandB15])] }

/-- A lower-priority repository offering a newer `B@9`. -/
def exRepoHigh : Repo := { id := "second", db := [("B", [exCandB9])] }

-- ===== THEOREMS =====

/-! ### Helper lemmas -/

theorem add_loop_eq (names : List String) (pkgs : List String) :
    ∀ deps, add_loop names deps pkgs
      = deps ++ (pkgs.filter (fun d => !decide (d ∈ names))).map TomlValue.vstr := by
  induction pkgs with
  | nil => intro deps; simp [add_loop]
  | cons d rest ih =>
    intro deps
    by_cases hd : d ∈ names
    · simp [add_loop, hd, ih]
    · simp [add_loop, hd, ih]

/-! ### Claims about `add_packages` -/

/-- Claim C8, counterexample: on a document with no `[project]` table,
`add_packages` does not return `Ok(())` (the unwrap in `get_mut_array`
panics), refuting the claim that it returns `Ok(())` for every document. -/
theorem rv_C8_counterexample :
    add_packages { project := none } ["pkg"] = none := rfl

/-- Claim C8 (amended): `add_packages` never returns its `AddError` branch;
whenever `get_mut_array` succeeds (the document has a `[project]` table and
its `dependencies` entry, if present, is an array), `add_packages` returns
`Ok(())`; on other documents it panics rather than erring. -/
theorem rv_C8 (doc : DocumentMut) (packages : List String)
    (h : (get_mut_array doc).isSome = true) :
    ∃ out, add_packages doc packages = some out := by
  obtain ⟨deps, hdeps⟩ := Option.isSome_iff_exists.mp h
  refine ⟨add_loop (config_dep_names deps) deps packages, ?_⟩
  simp [add_packages, hdeps]

/-- Claim C8 witness: the amended theorem applied at a concrete document
with an empty `[project]` table. -/
theorem rv_C8_witness :
    (get_mut_array { project := some { dependencies := none } }).isSome = true
    ∧ ∃ out, add_packages { project := some { dependencies := none } } ["a"] = some out :=
  ⟨rfl, rv_C8 _ _ rfl⟩

/-- Claim C9: `add_packages` appends to the dependencies array exactly those
elements of `packages` whose names are absent from the names of the array as
it stood before the call (plain strings or inline tables' `name` fields), in
argument order; since membership is checked only against the pre-call names,
a repeated fresh name is appended repeatedly. -/
theorem rv_C9 (doc : DocumentMut) (packages : List String) (deps : List TomlValue)
    (h : get_mut_array doc = some deps) :
    add_packages doc packages
      = some (deps ++
          (packages.filter (fun d => !decide (d ∈ config_dep_names deps))).map
            TomlValue.vstr) := by
  simp [add_packages, h, add_loop_eq]

/-- Claim C9 witness: a concrete run in which the fresh name `"b"`, passed
twice, is appended twice, while the already-present names `"a"` (plain
string) and `"t"` (inline table `name` field) are not appended. -/
theorem rv_C9_witness :
    add_packages
        { project := some { dependencies := some (.arr
            [TomlValue.vstr "a", TomlValue.vtable [("name", TomlValue.vstr "t")]]) } }
        ["b", "b", "a", "t"]
      = some [TomlValue.vstr "a", TomlValue.vtable [("name", TomlValue.vstr "t")],
          TomlValue.vstr "b", TomlValue.vstr "b"] := by
  rw [rv_C9
    { project := some { dependencies := some (.arr
        [TomlValue.vstr "a", TomlValue.vtable [("name", TomlValue.vstr "t")]]) } }
    ["b", "b", "a", "t"]
    [TomlValue.vstr "a", TomlValue.vtable [("name", TomlValue.vstr "t")]] rfl]
  rfl

/-! ### Lemmas about `dedupConsec` and sorting -/

theorem dedupConsecGo_subset {α : Type} [DecidableEq α] (prev : α) :
    ∀ l a, a ∈ dedupConsecGo prev l → a ∈ l := by
  intro l
  induction l generalizing prev with
  | nil => intro a h; simp [dedupConsecGo] at h
  | cons y ys ih =>
    intro a h
    by_cases hy : y = prev
    · simp [dedupConsecGo, hy] at h
      exact List.mem_cons_of_mem _ (ih prev a h)
    · simp [dedupConsecGo, hy] at h
      rcases h with h | h
      · exact h ▸ List.mem_cons_self _ _
      · exact List.mem_cons_of_mem _ (ih y a h)

theorem dedupConsec_subset {α : Type} [DecidableEq α] :
    ∀ (l : List α) a, a ∈ dedupConsec l → a ∈ l := by
  intro l a h
  cases l with
  | nil => simp [dedupConsec] at h
  | cons x xs =>
    simp [dedupConsec] at h
    rcases h with h | h
    · exact h ▸ List.mem_cons_self _ _
    · exact List.mem_cons_of_mem _ (dedupConsecGo_subset x xs a h)

theorem charsLe_total : ∀ x y, charsLe x y = true ∨ charsLe y x = true := by
  intro x
  induction x with
  | nil => intro y; left; cases y <;> rfl
  | cons a as ih =>
    intro y
    cases y with
    | nil => right; rfl
    | cons b bs =>
      rcases lt_trichotomy a b with hab | hab | hab
      · left; simp [charsLe, hab]
      · subst hab
        rcases ih bs with h | h
        · left; simp [charsLe, lt_irrefl, h]
        · right; simp [charsLe, lt_irrefl, h]
      · right; simp [charsLe, hab]

theorem charsLe_trans :
    ∀ x y z, charsLe x y = true → charsLe y z = true → charsLe x z = true := by
  intro x
  induction x with
  | nil => intro y z _ _; cases z <;> rfl
  | cons a as ih =>
    intro y z hxy hyz
    cases y with
    | nil => simp [charsLe] at hxy
    | cons b bs =>
      cases z with
      | nil => simp [charsLe] at hyz
      | cons c cs =>
        simp only [charsLe] at hxy hyz ⊢
        by_cases hab : a < b
        · by_cases hbc : b < c
          · simp [lt_trans hab hbc]
          · by_cases hcb : c < b
            · simp [charsLe, hbc, hcb] at hyz
            · have hbceq : b = c := le_antisymm (not_lt.mp hcb) (not_lt.mp hbc)
              simp [hbceq ▸ hab]
        · by_cases hba : b < a
          · simp [hab, hba] at hxy
          · have habeq : a = b := le_antisymm (not_lt.mp hba) (not_lt.mp hab)
            subst habeq
            simp only [lt_irrefl, if_false] at hxy
            by_cases hbc : a < c
            · simp [hbc]
            · by_cases hcb : c < a
              · simp [hbc, hcb] at hyz
              · rw [if_neg hbc, if_neg hcb] at hyz
                simp [hbc, hcb, ih bs cs hxy hyz]

theorem charsLe_antisymm :
    ∀ x y, charsLe x y = true → charsLe y x = true → x = y := by
  intro x
  induction x with
  | nil => intro y _ hyx; cases y with
    | nil => rfl
    | cons b bs => simp [charsLe] at hyx
  | cons a as ih =>
    intro y hxy hyx
    cases y with
    | nil => simp [charsLe] at hxy
    | cons b bs =>
      by_cases hab : a < b
      · simp [charsLe, hab, asymm hab] at hyx
      · by_cases hba : b < a
        · simp [charsLe, hab, hba] at hxy
        · have habeq : a = b := le_antisymm (not_lt.mp hba) (not_lt.mp hab)
          subst habeq
          simp only [charsLe, lt_irrefl, if_false] at hxy hyx
          rw [ih bs hxy hyx]

instance : IsTotal String (fun a b => strLe a b = true) :=
  ⟨fun a b => charsLe_total a.data b.data⟩

instance : IsTrans String (fun a b => strLe a b = true) :=
  ⟨fun a b c => charsLe_trans a.data b.data c.data⟩

theorem strLe_antisymm (a b : String) (h1 : strLe a b = true) (h2 : strLe b a = true) :
    a = b := by
  cases a with
  | mk da => cases b with
    | mk db =>
      have : da = db := charsLe_antisymm da db h1 h2
      rw [this]

instance : IsAntisymm String (fun a b => strLe a b = true) := ⟨strLe_antisymm⟩

theorem dedupConsecGo_strict {α : Type} [DecidableEq α] (le : α → α → Bool)
    (htr : ∀ a b c, le a b = true → le b c = true → le a c = true)
    (hant : ∀ a b, le a b = true → le b a = true → a = b) :
    ∀ (l : List α) (prev : α), (prev :: l).Pairwise (fun a b => le a b = true) →
      (prev :: dedupConsecGo prev l).Pairwise (fun a b => le a b = true ∧ a ≠ b) := by
  intro l
  induction l with
  | nil => intro prev _; simp [dedupConsecGo]
  | cons y ys ih =>
    intro prev h
    rcases List.pairwise_cons.mp h with ⟨hprev, htail⟩
    by_cases hy : y = prev
    · rw [dedupConsecGo, if_pos hy]
      apply ih prev
      refine List.pairwise_cons.mpr ⟨?_, (List.pairwise_cons.mp htail).2⟩
      intro z hz
      exact hy ▸ (List.pairwise_cons.mp htail).1 z hz
    · rw [dedupConsecGo, if_neg hy]
      have hpy : le prev y = true := hprev y (List.mem_cons_self _ _)
      refine List.pairwise_cons.mpr ⟨?_, ih y htail⟩
      intro z hz
      rcases List.mem_cons.mp hz with hz | hz
      · exact hz ▸ ⟨hpy, fun he => hy (he.symm)⟩
      · have hzys : z ∈ ys := dedupConsecGo_subset y ys z hz
        have hyz : le y z = true := (List.pairwise_cons.mp htail).1 z hzys
        refine ⟨htr _ _ _ hpy hyz, fun he => ?_⟩
        exact hy (hant y prev (he ▸ hyz) hpy)

theorem dedupConsec_strict {α : Type} [DecidableEq α] (le : α → α → Bool)
    (htr : ∀ a b c, le a b = true → le b c = true → le a c = true)
    (hant : ∀ a b, le a b = true → le b a = true → a = b)
    (l : List α) (h : l.Pairwise (fun a b => le a b = true)) :
    (dedupConsec l).Pairwise (fun a b => le a b = true ∧ a ≠ b) := by
  cases l with
  | nil => simp [dedupConsec]
  | cons x xs => exact dedupConsecGo_strict le htr hant xs x h

/-! ### Claim about `scan_r_files_for_packages` -/

theorem mem_foldr_append {α β : Type} (f : α → List β) :
    ∀ (l : List α) (b : β), b ∈ l.foldr (fun c acc => f c ++ acc) [] →
      ∃ a ∈ l, b ∈ f a := by
  intro l
  induction l with
  | nil => intro b h; simp at h
  | cons x xs ih =>
    intro b h
    simp only [List.foldr_cons, List.mem_append] at h
    rcases h with h | h
    · exact ⟨x, List.mem_cons_self _ _, h⟩
    · rcases ih b h with ⟨a, ha, hb⟩
      exact ⟨a, List.mem_cons_of_mem _ ha, hb⟩

/-- Claim C10: the list returned by `scan_r_files_for_packages` is sorted in
strictly ascending order (hence duplicate-free), and every returned name was
captured from some line whose first non-whitespace character is not `#` — a
name occurring only on comment lines is never returned. -/
theorem rv_C10 (contents : List String) :
    (scan_r_files_for_packages contents).Pairwise (fun a b => strLe a b = true ∧ a ≠ b)
    ∧ ∀ s ∈ scan_r_files_for_packages contents,
        ∃ content ∈ contents, ∃ line ∈ linesOf content,
          isCommentLine line = false ∧ s ∈ lineCaptures line := by
  constructor
  · exact dedupConsec_strict strLe
      (fun a b c => charsLe_trans a.data b.data c.data) strLe_antisymm _
      (List.sorted_insertionSort (fun a b => strLe a b = true) _)
  · intro s hs
    have hs2 : s ∈ List.insertionSort (fun a b => strLe a b = true)
        (contents.foldr (fun c acc => fileCaptures c ++ acc) []) :=
      dedupConsec_subset _ s hs
    have hs3 : s ∈ contents.foldr (fun c acc => fileCaptures c ++ acc) [] :=
      (List.perm_insertionSort (fun a b => strLe a b = true) _).subset hs2
    rcases mem_foldr_append fileCaptures contents s hs3 with ⟨content, hc, hf⟩
    rcases mem_foldr_append lineCaptures _ s hf with ⟨line, hl, hcap⟩
    rcases List.mem_filter.mp hl with ⟨hline, hnc⟩
    refine ⟨content, hc, line, hline, ?_, hcap⟩
    simpa using hnc

/-- Claim C10 witness: the theorem applied to a concrete content in which
`zlib` and `alpha` appear on code lines and `hidden` only on a comment line;
the returned list is sorted, duplicate-free, and `alpha` is traced back to a
non-comment line. -/
theorem rv_C10_witness :
    "alpha" ∈ scan_r_files_for_packages
        ["# library(hidden)\nlibrary(zlib)\nrequire(alpha)"]
    ∧ ∃ content ∈ ["# library(hidden)\nlibrary(zlib)\nrequire(alpha)"],
        ∃ line ∈ linesOf content,
          isCommentLine line = false ∧ "alpha" ∈ lineCaptures line :=
  ⟨by decide, (rv_C10 _).2 "alpha" (by decide)⟩

/-! ### Lemmas about `pos`, `alookup` and permutations -/

theorem pos_append_left {α : Type} [DecidableEq α] (a : α) :
    ∀ l1 l2 : List α, a ∈ l1 → pos a (l1 ++ l2) = pos a l1 := by
  intro l1
  induction l1 with
  | nil => intro l2 h; simp at h
  | cons x xs ih =>
    intro l2 h
    by_cases hx : x = a
    · simp [pos, hx]
    · rcases List.mem_cons.mp h with h1 | h1
      · exact absurd h1.symm hx
      · simp [pos, hx, ih l2 h1]

theorem pos_append_right {α : Type} [DecidableEq α] (a : α) :
    ∀ l1 l2 : List α, ¬ a ∈ l1 → pos a (l1 ++ l2) = l1.length + pos a l2 := by
  intro l1
  induction l1 with
  | nil => intro l2 _; simp
  | cons x xs ih =>
    intro l2 h
    have hx : ¬ x = a := fun he => h (he ▸ List.mem_cons_self _ _)
    have hxs : ¬ a ∈ xs := fun hm => h (List.mem_cons_of_mem _ hm)
    simp only [List.cons_append, pos, List.length_cons, List.append_eq]
    rw [if_neg hx, ih l2 hxs]
    omega

theorem pos_lt_length {α : Type} [DecidableEq α] (a : α) :
    ∀ l : List α, a ∈ l → pos a l < l.length := by
  intro l
  induction l with
  | nil => intro h; simp at h
  | cons x xs ih =>
    intro h
    by_cases hx : x = a
    · simp [pos, hx]
    · rcases List.mem_cons.mp h with h1 | h1
      · exact absurd h1.symm hx
      · simp only [pos, if_neg hx, List.length_cons]
        exact Nat.succ_lt_succ (ih h1)

theorem alookup_mem {α : Type} (n : String) :
    ∀ l : List (String × α) , ∀ v, alookup n l = some v → (n, v) ∈ l := by
  intro l
  induction l with
  | nil => intro v h; simp [alookup] at h
  | cons e rest ih =>
    intro v h
    rcases e with ⟨k, w⟩
    by_cases hk : k = n
    · simp [alookup, hk] at h
      subst hk; subst h
      exact List.mem_cons_self _ _
    · simp only [alookup, if_neg hk] at h
      exact List.mem_cons_of_mem _ (ih v h)

theorem alookup_mem_keys {α : Type} (n : String) (l : List (String × α)) (v : α)
    (h : alookup n l = some v) : n ∈ keysOf l := by
  have := alookup_mem n l v h
  exact List.mem_map.mpr ⟨(n, v), this, rfl⟩

theorem alookup_eq_none_iff {α : Type} (n : String) :
    ∀ l : List (String × α), alookup n l = none ↔ ¬ n ∈ keysOf l := by
  intro l
  induction l with
  | nil => simp [alookup, keysOf]
  | cons e rest ih =>
    rcases e with ⟨k, w⟩
    by_cases hk : k = n
    · simp [alookup, hk, keysOf]
    · simp [alookup, hk, keysOf, ih]
      intro _
      exact fun he => hk he.symm

theorem alookup_isSome_of_mem_keys {α : Type} (n : String) (l : List (String × α))
    (h : n ∈ keysOf l) : ∃ v, alookup n l = some v := by
  cases hl : alookup n l with
  | none => exact absurd h ((alookup_eq_none_iff n l).mp hl)
  | some v => exact ⟨v, rfl⟩

theorem mem_alookup_nodup {α : Type} (n : String) :
    ∀ l : List (String × α), ∀ v, (keysOf l).Nodup → (n, v) ∈ l →
      alookup n l = some v := by
  intro l
  induction l with
  | nil => intro v _ h; simp at h
  | cons e rest ih =>
    intro v hnd h
    rcases e with ⟨k, w⟩
    have hnd2 := List.nodup_cons.mp (show (k :: keysOf rest).Nodup from hnd)
    rcases List.mem_cons.mp h with h1 | h1
    · rw [Prod.mk.injEq] at h1
      simp [alookup, h1.1, h1.2]
    · have hk : ¬ k = n := by
        intro he
        subst he
        exact hnd2.1 (List.mem_map.mpr ⟨(k, v), h1, rfl⟩)
      simp only [alookup, if_neg hk]
      exact ih v hnd2.2 h1

theorem alookup_perm {α : Type} (n : String) (l1 l2 : List (String × α))
    (hp : l1.Perm l2) (hnd : (keysOf l1).Nodup) :
    alookup n l1 = alookup n l2 := by
  have hnd2 : (keysOf l2).Nodup := by
    have : (keysOf l1).Perm (keysOf l2) := hp.map _
    exact this.nodup_iff.mp hnd
  cases hl : alookup n l1 with
  | some v =>
    have hm : (n, v) ∈ l2 := hp.subset (alookup_mem n l1 v hl)
    exact (mem_alookup_nodup n l2 v hnd2 hm).symm
  | none =>
    have hk : ¬ n ∈ keysOf l1 := (alookup_eq_none_iff n l1).mp hl
    have hk2 : ¬ n ∈ keysOf l2 := fun h => hk ((hp.map _).mem_iff.mpr h)
    exact ((alookup_eq_none_iff n l2).mpr hk2).symm

theorem perm_all {α : Type} (f : α → Bool) {l1 l2 : List α} (hp : l1.Perm l2) :
    l1.all f = l2.all f := by
  induction hp with
  | nil => rfl
  | cons x _ ih => simp [List.all_cons, ih]
  | swap x y l => simp [List.all_cons, Bool.and_left_comm]
  | trans _ _ ih1 ih2 => rw [ih1, ih2]

theorem perm_any {α : Type} (f : α → Bool) {l1 l2 : List α} (hp : l1.Perm l2) :
    l1.any f = l2.any f := by
  induction hp with
  | nil => rfl
  | cons x _ ih => simp [List.any_cons, ih]
  | swap x y l => simp [List.any_cons, Bool.or_left_comm]
  | trans _ _ ih1 ih2 => rw [ih1, ih2]

theorem dedupConsecGo_mem_of_mem {α : Type} [DecidableEq α] :
    ∀ (l : List α) (prev a : α), a ∈ l → a ∈ prev :: dedupConsecGo prev l := by
  intro l
  induction l with
  | nil => intro prev a h; simp at h
  | cons y ys ih =>
    intro prev a h
    by_cases hy : y = prev
    · rw [dedupConsecGo, if_pos hy]
      rcases List.mem_cons.mp h with h1 | h1
      · exact (h1.trans hy) ▸ List.mem_cons_self _ _
      · exact ih prev a h1
    · rw [dedupConsecGo, if_neg hy]
      rcases List.mem_cons.mp h with h1 | h1
      · exact h1 ▸ List.mem_cons_of_mem _ (List.mem_cons_self _ _)
      · rcases List.mem_cons.mp (ih y a h1) with h2 | h2
        · exact h2 ▸ List.mem_cons_of_mem _ (List.mem_cons_self _ _)
        · exact List.mem_cons_of_mem _ (List.mem_cons_of_mem _ h2)

theorem mem_dedupConsec_iff {α : Type} [DecidableEq α] (l : List α) (a : α) :
    a ∈ dedupConsec l ↔ a ∈ l := by
  constructor
  · exact dedupConsec_subset l a
  · intro h
    cases l with
    | nil => simp at h
    | cons x xs =>
      rcases List.mem_cons.mp h with h1 | h1
      · exact h1 ▸ List.mem_cons_self _ _
      · exact dedupConsecGo_mem_of_mem xs x a h1

theorem mem_sortDedup_iff (l : List String) (a : String) :
    a ∈ sortDedup l ↔ a ∈ l := by
  rw [sortDedup, mem_dedupConsec_iff]
  exact (List.perm_insertionSort _ l).mem_iff

theorem sortDedup_sorted_strict (l : List String) :
    (sortDedup l).Pairwise (fun a b => strLe a b = true ∧ a ≠ b) :=
  dedupConsec_strict strLe (fun a b c => charsLe_trans a.data b.data c.data)
    strLe_antisymm _ (List.sorted_insertionSort (fun a b => strLe a b = true) l)

theorem sortDedup_nodup (l : List String) : (sortDedup l).Nodup :=
  (sortDedup_sorted_strict l).imp (fun h => h.2)

theorem sortDedup_perm_eq (l1 l2 : List String) (hp : l1.Perm l2) :
    sortDedup l1 = sortDedup l2 := by
  unfold sortDedup
  congr 1
  apply List.eq_of_perm_of_sorted
    (r := fun a b => strLe a b = true)
  · exact ((List.perm_insertionSort _ l1).trans hp).trans
      (List.perm_insertionSort _ l2).symm
  · exact List.sorted_insertionSort _ l1
  · exact List.sorted_insertionSort _ l2

/-! ### Claim C1: lockfile round trip -/

theorem load_save (r : Resolution) (repositories : List (String × String))
    (plat : String)
    (hvalid : ∀ pr ∈ r.graph, validRd (repositories.map (·.1)) pr.2 = true) :
    load (save r repositories plat)
      = .ok { root := [],
              graph := (List.insertionSort (fun a b => strLe a.name b.name = true)
                  (r.graph.map (·.2))).map (fun rd => (rd.name, rd)) } := by
  unfold load save
  have hnone : (List.insertionSort (fun a b => strLe a.name b.name = true)
      (r.graph.map (·.2))).find?
        (fun rd => !validRd (repositories.map (·.1)) rd) = none := by
    rw [List.find?_eq_none]
    intro rd hrd
    have hrd2 : rd ∈ r.graph.map (·.2) := (List.perm_insertionSort _ _).subset hrd
    rcases List.mem_map.mp hrd2 with ⟨pr, hpr, hpr2⟩
    simp [hpr2 ▸ hvalid pr hpr]
  simp only [hnone]

theorem map_pair_eq_self (g : List (String × ResolvedDependency))
    (hkeys : ∀ pr ∈ g, pr.1 = pr.2.name) :
    g.map (fun pr => (pr.2.name, pr.2)) = g := by
  induction g with
  | nil => rfl
  | cons e rest ih =>
    have h1 := hkeys e (List.mem_cons_self _ _)
    have h2 : ∀ pr ∈ rest, pr.1 = pr.2.name :=
      fun pr hpr => hkeys pr (List.mem_cons_of_mem _ hpr)
    simp only [List.map_cons, ih h2]
    rw [← h1]

/-- Claim C1: for every valid Resolution (graph keyed by entry name, unique
keys, entries passing load validation against the recorded repositories),
`load (save r)` succeeds and returns the same Resolution up to the root-set
bookkeeping: the loaded root set is empty (not persisted by the format) and
the loaded graph is the same name → ResolvedDependency mapping. -/
theorem rv_C1 (r : Resolution) (repositories : List (String × String))
    (plat : String)
    (hkeys : ∀ pr ∈ r.graph, pr.1 = pr.2.name)
    (hnd : (keysOf r.graph).Nodup)
    (hvalid : ∀ pr ∈ r.graph, validRd (repositories.map (·.1)) pr.2 = true) :
    ∃ res, load (save r repositories plat) = .ok res ∧ res.root = []
      ∧ ∀ n, alookup n res.graph = alookup n r.graph := by
  refine ⟨_, load_save r repositories plat hvalid, rfl, ?_⟩
  intro n
  have hperm : ((List.insertionSort (fun a b => strLe a.name b.name = true)
      (r.graph.map (·.2))).map (fun rd => (rd.name, rd))).Perm r.graph := by
    have h1 : ((List.insertionSort (fun a b => strLe a.name b.name = true)
        (r.graph.map (·.2))).map (fun rd => (rd.name, rd))).Perm
          ((r.graph.map (·.2)).map (fun rd => (rd.name, rd))) :=
      (List.perm_insertionSort _ _).map _
    rw [List.map_map] at h1
    have h2 : r.graph.map ((fun rd => (rd.name, rd)) ∘ (·.2)) = r.graph :=
      map_pair_eq_self r.graph hkeys
    rw [h2] at h1
    exact h1
  have hnd2 : (keysOf ((List.insertionSort (fun a b => strLe a.name b.name = true)
      (r.graph.map (·.2))).map (fun rd => (rd.name, rd)))).Nodup := by
    have := (hperm.map (·.1)).nodup_iff
    exact this.mpr hnd
  exact alookup_perm n _ _ hperm hnd2

/-- Claim C1 witness: the theorem applied to the one-package Resolution
`A@1.2` with a cran-sourced entry. -/
theorem rv_C1_witness :
    ∃ res, load (save { root := ["A"], graph := [("A", exRdA)] } [("cran", "u")] "linux")
        = .ok res ∧ res.root = []
      ∧ ∀ n, alookup n res.graph = alookup n [("A", exRdA)] :=
  rv_C1 { root := ["A"], graph := [("A", exRdA)] } [("cran", "u")] "linux"
    (by decide) (by decide) (by decide)

/-! ### Claim C2: acyclicity of resolver output -/

theorem mem_kahnStep {g : List (String × ResolvedDependency)} {done : List String}
    {n : String} (h : n ∈ kahnStep g done) :
    ¬ n ∈ done ∧ ∃ rd, (n, rd) ∈ g ∧
      ∀ b ∈ depNames rd, b ∈ keysOf g → b ∈ done := by
  rw [kahnStep, List.mem_filterMap] at h
  obtain ⟨e, he, hfe⟩ := h
  by_cases h1 : e.1 ∈ done
  · rw [if_pos (by simpa using h1)] at hfe
    exact absurd hfe (by simp)
  · rw [if_neg (by simpa using h1)] at hfe
    by_cases h2 : (depNames e.2).all
        (fun d => !decide (d ∈ keysOf g) || decide (d ∈ done)) = true
    · rw [if_pos h2] at hfe
      injection hfe with hfe
      subst hfe
      refine ⟨h1, e.2, by simpa using he, ?_⟩
      intro b hb hbk
      have hball := List.all_eq_true.mp h2 b hb
      simpa [hbk] using hball
    · rw [if_neg h2] at hfe
      exact absurd hfe (by simp)

theorem filterMap_fst_sublist {α : Type} (f : (String × α) → Option String)
    (hf : ∀ e b, f e = some b → b = e.1) :
    ∀ l : List (String × α), (l.filterMap f).Sublist (keysOf l) := by
  intro l
  induction l with
  | nil => simp [keysOf]
  | cons e rest ih =>
    rw [List.filterMap_cons]
    cases hfe : f e with
    | none =>
      show (rest.filterMap f).Sublist (e.1 :: keysOf rest)
      exact ih.cons e.1
    | some b =>
      have hb : b = e.1 := hf e b hfe
      rw [hb]
      show (e.1 :: rest.filterMap f).Sublist (e.1 :: keysOf rest)
      exact ih.cons₂ e.1

theorem kahnStep_sublist (g : List (String × ResolvedDependency))
    (done : List String) : (kahnStep g done).Sublist (keysOf g) := by
  unfold kahnStep
  apply filterMap_fst_sublist
  intro e b h
  by_cases h1 : e.1 ∈ done
  · rw [if_pos (by simpa using h1)] at h
    exact absurd h (by simp)
  · rw [if_neg (by simpa using h1)] at h
    by_cases h2 : (depNames e.2).all
        (fun d => !decide (d ∈ keysOf g) || decide (d ∈ done)) = true
    · rw [if_pos h2] at h
      injection h with h
      exact h.symm
    · rw [if_neg h2] at h
      exact absurd h (by simp)

theorem kahnInv_append {g : List (String × ResolvedDependency)} {done : List String}
    (hnd : (keysOf g).Nodup) (hinv : kahnInv g done) :
    kahnInv g (done ++ kahnStep g done) := by
  obtain ⟨hdn, hdk, hord⟩ := hinv
  have hnew_sub : ∀ x ∈ kahnStep g done, x ∈ keysOf g :=
    fun x hx => (kahnStep_sublist g done).subset hx
  have hnew_nd : (kahnStep g done).Nodup := hnd.sublist (kahnStep_sublist g done)
  refine ⟨?_, ?_, ?_⟩
  · rw [List.nodup_append]
    refine ⟨hdn, hnew_nd, ?_⟩
    intro a ha hb
    exact (mem_kahnStep hb).1 ha
  · intro x hx
    rcases List.mem_append.mp hx with hx | hx
    · exact hdk x hx
    · exact hnew_sub x hx
  · intro a rd b ha hrd hb hbk
    rcases List.mem_append.mp ha with ha | ha
    · obtain ⟨hb1, hb2⟩ := hord a rd b ha hrd hb hbk
      refine ⟨List.mem_append_left _ hb1, ?_⟩
      rw [pos_append_left b done _ hb1, pos_append_left a done _ ha]
      exact hb2
    · obtain ⟨hnotdone, rd2, hrd2mem, hdeps⟩ := mem_kahnStep ha
      have hrd2 : alookup a g = some rd2 := mem_alookup_nodup a g rd2 hnd hrd2mem
      have hrdeq : rd2 = rd := by
        have h3 := hrd2.symm.trans hrd
        injection h3
      subst hrdeq
      have hbdone : b ∈ done := hdeps b hb hbk
      refine ⟨List.mem_append_left _ hbdone, ?_⟩
      rw [pos_append_left b done _ hbdone, pos_append_right a done _ hnotdone]
      have h1 : pos b done < done.length := pos_lt_length b done hbdone
      omega

theorem kahnLoop_inv {g : List (String × ResolvedDependency)}
    (hnd : (keysOf g).Nodup) :
    ∀ fuel done, kahnInv g done → kahnInv g (kahnLoop g fuel done) := by
  intro fuel
  induction fuel with
  | zero => intro done h; exact h
  | succ n ih =>
    intro done h
    simp only [kahnLoop]
    by_cases he : (kahnStep g done).isEmpty = true
    · rw [if_pos he]; exact h
    · rw [if_neg he]; exact ih _ (kahnInv_append hnd h)

theorem topoOrder_inv {g : List (String × ResolvedDependency)}
    (hnd : (keysOf g).Nodup) : kahnInv g (topoOrder g) := by
  rw [topoOrder]
  refine kahnLoop_inv hnd _ [] ⟨List.nodup_nil, ?_, ?_⟩
  · intro x hx; simp at hx
  · intro a rd b ha; simp at ha

theorem kahnComplete_mem {g : List (String × ResolvedDependency)}
    (hc : kahnComplete g = true) {n : String} (hn : n ∈ keysOf g) :
    n ∈ topoOrder g := by
  have h := List.all_eq_true.mp hc n hn
  simpa using h

theorem edge_pos_lt {g : List (String × ResolvedDependency)}
    (hnd : (keysOf g).Nodup) (hc : kahnComplete g = true)
    {a b : String} (hab : edgeRel g a b) (hbk : b ∈ keysOf g) :
    pos b (topoOrder g) < pos a (topoOrder g) := by
  obtain ⟨rd, hrd, hb⟩ := hab
  have hak : a ∈ keysOf g := alookup_mem_keys a g rd hrd
  have hat : a ∈ topoOrder g := kahnComplete_mem hc hak
  exact ((topoOrder_inv hnd).2.2 a rd b hat hrd hb hbk).2

theorem transGen_mem_keys {g : List (String × ResolvedDependency)} {a b : String}
    (h : Relation.TransGen (edgeRel g) a b) : a ∈ keysOf g := by
  induction h with
  | single hab =>
    obtain ⟨rd, hrd, _⟩ := hab
    exact alookup_mem_keys _ _ _ hrd
  | tail h1 h2 ih => exact ih

theorem transGen_pos_lt {g : List (String × ResolvedDependency)}
    (hnd : (keysOf g).Nodup) (hc : kahnComplete g = true) {a b : String}
    (h : Relation.TransGen (edgeRel g) a b) :
    b ∈ keysOf g → pos b (topoOrder g) < pos a (topoOrder g) := by
  induction h with
  | single hab => intro hbk; exact edge_pos_lt hnd hc hab hbk
  | tail h1 h2 ih =>
    intro hck
    obtain ⟨rd, hrd, hdep⟩ := h2
    have hbk := alookup_mem_keys _ _ _ hrd
    exact lt_trans (edge_pos_lt hnd hc ⟨rd, hrd, hdep⟩ hck) (ih hbk)

theorem resolveLoop_fixed (roots : List Dep) (repos : List Repo)
    (lock : Option Lockfile) (plat : String) (excl : List String) :
    ∀ fuel sel0 sel,
      resolveLoop roots repos lock plat excl fuel sel0 = .ok sel →
      resolvePass roots repos lock plat excl sel = .ok sel := by
  intro fuel
  induction fuel with
  | zero => intro sel0 sel h; exact absurd h (by simp [resolveLoop])
  | succ n ih =>
    intro sel0 sel h
    cases hp : resolvePass roots repos lock plat excl sel0 with
    | error e =>
      simp only [resolveLoop, hp] at h
      exact absurd h (by simp)
    | ok sel2 =>
      simp only [resolveLoop, hp] at h
      by_cases heq : sel2 = sel0
      · rw [if_pos heq] at h
        injection h with h2
        subst h2
        rw [heq] at hp
        exact hp
      · rw [if_neg heq] at h
        exact ih sel2 sel h

theorem decideAll_keys (roots : List Dep) (repos : List Repo)
    (lock : Option Lockfile) (plat : String) (excl : List String)
    (sel : List (String × ResolvedDependency)) :
    ∀ names out, decideAll roots repos lock plat excl sel names = .ok out →
      keysOf out = names := by
  intro names
  induction names with
  | nil =>
    intro out h
    simp only [decideAll] at h
    injection h with h
    rw [← h]
    rfl
  | cons p rest ih =>
    intro out h
    cases h1 : decideOne roots repos lock plat excl sel p with
    | error e =>
      simp only [decideAll, h1] at h
      exact absurd h (by simp)
    | ok rd =>
      cases h2 : decideAll roots repos lock plat excl sel rest with
      | error e =>
        simp only [decideAll, h1, h2] at h
        exact absurd h (by simp)
      | ok out2 =>
        simp only [decideAll, h1, h2] at h
        injection h with h3
        rw [← h3]
        show p :: keysOf out2 = p :: rest
        rw [ih out2 h2]

theorem pass_keys (roots : List Dep) (repos : List Repo) (lock : Option Lockfile)
    (plat : String) (excl : List String)
    (sel out : List (String × ResolvedDependency))
    (h : resolvePass roots repos lock plat excl sel = .ok out) :
    keysOf out = canonNames roots sel :=
  decideAll_keys roots repos lock plat excl sel _ out h

theorem resolve_ok_facts (roots : List Dep) (repos : List Repo)
    (lock : Option Lockfile) (plat : String) (excl : List String)
    (res : Resolution) (h : resolve roots repos lock plat excl = .ok res) :
    resolvePass roots repos lock plat excl res.graph = .ok res.graph
    ∧ (keysOf res.graph).Nodup ∧ kahnComplete res.graph = true := by
  cases hl : resolveLoop roots repos lock plat excl (fuelBound roots repos) [] with
  | error e =>
    simp only [resolve, hl] at h
    exact absurd h (by simp)
  | ok sel =>
    simp only [resolve, hl] at h
    by_cases hc : kahnComplete sel = true
    · rw [if_pos hc] at h
      injection h with h2
      have hg : res.graph = sel := by rw [← h2]
      rw [hg]
      have hpass := resolveLoop_fixed roots repos lock plat excl _ _ _ hl
      have hk := pass_keys roots repos lock plat excl sel sel hpass
      refine ⟨hpass, ?_, hc⟩
      rw [hk]
      exact sortDedup_nodup _
    · rw [if_neg hc] at h
      exact absurd h (by simp)

/-- Claim C2: every Resolution produced by the Resolver has an acyclic
dependency graph: no package is transitively reachable from itself along
`direct_dependencies` edges. -/
theorem rv_C2 (roots : List Dep) (repos : List Repo) (lock : Option Lockfile)
    (plat : String) (excl : List String) (res : Resolution)
    (h : resolve roots repos lock plat excl = .ok res) :
    ∀ n, ¬ Relation.TransGen (edgeRel res.graph) n n := by
  obtain ⟨hpass, hnd, hc⟩ := resolve_ok_facts roots repos lock plat excl res h
  intro n hcyc
  have hnk : n ∈ keysOf res.graph := transGen_mem_keys hcyc
  exact absurd (transGen_pos_lt hnd hc hcyc hnk) (lt_irrefl _)

/-- Claim C2 witness: the §8 example resolves to `A@1.2`, `B@2.1`, and the
theorem yields that its graph has no cycle through `A`. -/
theorem rv_C2_witness :
    resolve exRoots [exRepo] none "linux" [] = .ok exRes
    ∧ ¬ Relation.TransGen (edgeRel exRes.graph) "A" "A" :=
  ⟨by decide, rv_C2 exRoots [exRepo] none "linux" [] exRes (by decide) "A"⟩

/-! ### Claim C3: selected versions satisfy every requirer's constraint -/

theorem mem_foldr_append_of_mem {α β : Type} (f : α → List β) :
    ∀ (l : List α) (a : α) (b : β), a ∈ l → b ∈ f a →
      b ∈ l.foldr (fun c acc => f c ++ acc) [] := by
  intro l
  induction l with
  | nil => intro a b h; simp at h
  | cons x xs ih =>
    intro a b ha hb
    simp only [List.foldr_cons, List.mem_append]
    rcases List.mem_cons.mp ha with ha | ha
    · exact Or.inl (ha ▸ hb)
    · exact Or.inr (ih a b ha hb)

theorem decideAll_mem (roots : List Dep) (repos : List Repo)
    (lock : Option Lockfile) (plat : String) (excl : List String)
    (sel : List (String × ResolvedDependency)) :
    ∀ names out, decideAll roots repos lock plat excl sel names = .ok out →
      ∀ pr ∈ out, decideOne roots repos lock plat excl sel pr.1 = .ok pr.2 := by
  intro names
  induction names with
  | nil =>
    intro out h pr hpr
    simp only [decideAll] at h
    injection h with h
    rw [← h] at hpr
    simp at hpr
  | cons p rest ih =>
    intro out h pr hpr
    cases h1 : decideOne roots repos lock plat excl sel p with
    | error e =>
      simp only [decideAll, h1] at h
      exact absurd h (by simp)
    | ok rd =>
      cases h2 : decideAll roots repos lock plat excl sel rest with
      | error e =>
        simp only [decideAll, h1, h2] at h
        exact absurd h (by simp)
      | ok out2 =>
        simp only [decideAll, h1, h2] at h
        injection h with h3
        rw [← h3] at hpr
        rcases List.mem_cons.mp hpr with hpr | hpr
        · rw [hpr]
          exact h1
        · exact ih out2 h2 pr hpr

theorem selectBest_sat (repos : List Repo) (p : String) (sat : Candidate → Bool)
    (requirers : List String) (c : Candidate)
    (h : selectBest repos p sat requirers = .ok c) : sat c = true := by
  unfold selectBest at h
  by_cases h1 : repos.all (fun r => (candidatesOf r p).isEmpty) = true
  · rw [if_pos h1] at h
    exact absurd h (by simp)
  · rw [if_neg h1] at h
    cases h2 : repos.findSome? (fun r => (candidatesOf r p).find? sat) with
    | none => rw [h2] at h; exact absurd h (by simp)
    | some c2 =>
      rw [h2] at h
      injection h with h3
      subst h3
      obtain ⟨l1, r, l2, _, hr, _⟩ := List.findSome?_eq_some_iff.mp h2
      exact List.find?_some hr

theorem decideFresh_sat (repos : List Repo) (plat : String)
    (sel : List (String × ResolvedDependency)) (p : String)
    (reqs : List VersionRequirement) (requirers : List String)
    (rd : ResolvedDependency)
    (h : decideFresh repos plat sel p reqs requirers = .ok rd) :
    satisfiesAll reqs rd.version = true := by
  have hsel :
      (selectBest repos p (eligibleSat plat reqs) requirers).map (rdOfCandidate p)
        = .ok rd → satisfiesAll reqs rd.version = true := by
    intro hm
    cases hs : selectBest repos p (eligibleSat plat reqs) requirers with
    | error e =>
      rw [hs] at hm
      simp only [Except.map] at hm
      exact absurd hm (by simp)
    | ok c2 =>
      rw [hs] at hm
      simp only [Except.map] at hm
      have h2 := selectBest_sat repos p _ requirers c2 hs
      have h3 : rdOfCandidate p c2 = rd := by injection hm
      have h4 : rd.version = c2.version := by rw [← h3]; rfl
      rw [h4]
      simp only [eligibleSat, Bool.and_eq_true] at h2
      exact h2.2
  cases hcur : alookup p sel with
  | some cur =>
    simp only [decideFresh, hcur] at h
    by_cases hc : satisfiesAll reqs cur.version = true
    · rw [if_pos hc] at h
      injection h with h2
      rw [← h2]
      exact hc
    · rw [if_neg hc] at h
      exact hsel h
  | none =>
    simp only [decideFresh, hcur] at h
    exact hsel h

theorem decideOne_sat (roots : List Dep) (repos : List Repo)
    (lock : Option Lockfile) (plat : String) (excl : List String)
    (sel : List (String × ResolvedDependency)) (p : String)
    (rd : ResolvedDependency)
    (h : decideOne roots repos lock plat excl sel p = .ok rd) :
    satisfiesAll (reqsFor roots sel p) rd.version = true := by
  cases hl : lockEntry lock p with
  | some lrd =>
    simp only [decideOne, hl] at h
    by_cases hc : ¬ p ∈ excl ∧ satisfiesAll (reqsFor roots sel p) lrd.version = true
    · rw [if_pos hc] at h
      injection h with h2
      rw [← h2]
      exact hc.2
    · rw [if_neg hc] at h
      exact decideFresh_sat repos plat sel p _ _ rd h
  | none =>
    simp only [decideOne, hl] at h
    exact decideFresh_sat repos plat sel p _ _ rd h

/-- Claim C3: in every Resolution produced by the Resolver, each resolved
package's version satisfies the requirement contributed by each of its
requirers: every root dependency on it and every resolved package whose
direct dependencies include it. -/
theorem rv_C3 (roots : List Dep) (repos : List Repo) (lock : Option Lockfile)
    (plat : String) (excl : List String) (res : Resolution)
    (h : resolve roots repos lock plat excl = .ok res) :
    ∀ p rd, alookup p res.graph = some rd →
      (∀ d ∈ roots, d.name = p → satisfies d.req rd.version = true)
      ∧ (∀ q qrd, alookup q res.graph = some qrd →
          ∀ d ∈ qrd.direct_dependencies, d.name = p →
            satisfies d.req rd.version = true) := by
  obtain ⟨hpass, hnd, _⟩ := resolve_ok_facts roots repos lock plat excl res h
  intro p rd hprd
  have hmem : (p, rd) ∈ res.graph := alookup_mem p res.graph rd hprd
  have hdec : decideOne roots repos lock plat excl res.graph p = .ok rd :=
    decideAll_mem roots repos lock plat excl res.graph _ res.graph hpass (p, rd) hmem
  have hsat := decideOne_sat roots repos lock plat excl res.graph p rd hdec
  have hall := List.all_eq_true.mp hsat
  constructor
  · intro d hd hdp
    apply hall
    apply List.mem_append_left
    exact List.mem_map.mpr ⟨d, List.mem_filter.mpr ⟨hd, by simp [hdp]⟩, rfl⟩
  · intro q qrd hq d hd hdp
    apply hall
    apply List.mem_append_right
    have hqmem : (q, qrd) ∈ res.graph := alookup_mem q res.graph qrd hq
    exact mem_foldr_append_of_mem _ res.graph (q, qrd) d.req hqmem
      (List.mem_map.mpr ⟨d, List.mem_filter.mpr ⟨hd, by simp [hdp]⟩, rfl⟩)

/-- Claim C3 witness: in the §8 example, `B@2.1` satisfies the constraint
`B >= 2` contributed by its requirer `A`. -/
theorem rv_C3_witness :
    satisfies (VersionRequirement.atLeast [2]) exRdB.version = true :=
  ((rv_C3 exRoots [exRepo] none "linux" [] exRes (by decide) "B" exRdB
      (by decide)).2) "A" exRdA (by decide)
    { name := "B", req := .atLeast [2] } (by decide) (by decide)

/-! ### Claim C4: repository priority dominates version recency -/

theorem verCmp_refl : ∀ v : Version, verCmp v v = Ordering.eq := by
  intro v
  induction v with
  | nil => rfl
  | cons a as ih => simp [verCmp, lt_irrefl, ih]

theorem verLe_refl (v : Version) : verLe v v = true := by
  simp [verLe, verCmp_refl]

theorem find?_first_is_max (sat : Candidate → Bool) :
    ∀ (l : List Candidate) (c : Candidate),
      l.Pairwise (fun c1 c2 => verLe c2.version c1.version = true) →
      l.find? sat = some c →
      ∀ c2 ∈ l, sat c2 = true → verLe c2.version c.version = true := by
  intro l
  induction l with
  | nil => intro c _ h; simp at h
  | cons x xs ih =>
    intro c hpw hf c2 hc2 hsat2
    rcases List.pairwise_cons.mp hpw with ⟨hx, hxs⟩
    by_cases hsx : sat x = true
    · rw [List.find?_cons_of_pos _ hsx] at hf
      injection hf with hf
      subst hf
      rcases List.mem_cons.mp hc2 with h2 | h2
      · rw [h2]
        exact verLe_refl _
      · exact hx c2 h2
    · rw [List.find?_cons_of_neg _ hsx] at hf
      rcases List.mem_cons.mp hc2 with h2 | h2
      · rw [h2] at hsat2
        exact absurd hsat2 hsx
      · exact ih c hxs hf c2 h2 hsat2

/-- Claim C4: when candidate selection returns a candidate, that candidate
comes from the first repository (in configured priority order) offering at
least one eligible satisfying candidate — every earlier repository has none —
and it is the highest satisfying version that repository offers (given the
§4.2 descending-order contract); later repositories, whatever versions they
offer, are not consulted, so a satisfying candidate in an earlier repository
is never overridden by a newer version from a later one. -/
theorem rv_C4 (repos : List Repo) (p plat : String)
    (reqs : List VersionRequirement) (requirers : List String) (c : Candidate)
    (hsorted : ∀ r ∈ repos, (candidatesOf r p).Pairwise
      (fun c1 c2 => verLe c2.version c1.version = true))
    (h : selectBest repos p (eligibleSat plat reqs) requirers = .ok c) :
    ∃ rl1 r rl2, repos = rl1 ++ r :: rl2
      ∧ (∀ r2 ∈ rl1, ∀ c2 ∈ candidatesOf r2 p, eligibleSat plat reqs c2 = false)
      ∧ c ∈ candidatesOf r p
      ∧ eligibleSat plat reqs c = true
      ∧ (∀ c2 ∈ candidatesOf r p, eligibleSat plat reqs c2 = true →
          verLe c2.version c.version = true) := by
  unfold selectBest at h
  by_cases h1 : repos.all (fun r => (candidatesOf r p).isEmpty) = true
  · rw [if_pos h1] at h
    exact absurd h (by simp)
  · rw [if_neg h1] at h
    cases h2 : repos.findSome?
        (fun r => (candidatesOf r p).find? (eligibleSat plat reqs)) with
    | none => rw [h2] at h; exact absurd h (by simp)
    | some c2 =>
      rw [h2] at h
      injection h with h3
      subst h3
      obtain ⟨rl1, r, rl2, hsplit, hfr, hnone⟩ := List.findSome?_eq_some_iff.mp h2
      refine ⟨rl1, r, rl2, hsplit, ?_, ?_, ?_, ?_⟩
      · intro r2 hr2 c3 hc3
        have hn := hnone r2 hr2
        have hn3 := List.find?_eq_none.mp hn c3 hc3
        exact Bool.eq_false_iff.mpr hn3
      · exact List.mem_of_find?_eq_some hfr
      · exact List.find?_some hfr
      · intro c3 hc3 hsat3
        have hrmem : r ∈ repos := by
          rw [hsplit]
          exact List.mem_append_right _ (List.mem_cons_self _ _)
        exact find?_first_is_max _ _ _ (hsorted r hrmem) hfr c3 hc3 hsat3

/-- Claim C4 witness: with a priority repository offering only `B@1.5` and a
later repository offering `B@9`, selection under `B >= 1` returns `B@1.5`
and the theorem locates it in the first repository. -/
theorem rv_C4_witness :
    selectBest [exRepoLow, exRepoHigh] "B"
        (eligibleSat "linux" [.atLeast [1]]) [] = .ok exCandB15
    ∧ ∃ rl1 r rl2, [exRepoLow, exRepoHigh] = rl1 ++ r :: rl2
      ∧ (∀ r2 ∈ rl1, ∀ c2 ∈ candidatesOf r2 "B",
          eligibleSat "linux" [.atLeast [1]] c2 = false)
      ∧ exCandB15 ∈ candidatesOf r "B"
      ∧ eligibleSat "linux" [.atLeast [1]] exCandB15 = true
      ∧ (∀ c2 ∈ candidatesOf r "B",
          eligibleSat "linux" [.atLeast [1]] c2 = true →
            verLe c2.version exCandB15.version = true) :=
  ⟨by decide,
   rv_C4 [exRepoLow, exRepoHigh] "B" "linux" [.atLeast [1]] [] exCandB15
     (by decide) (by decide)⟩

/-! ### Claim C5: no step for identical entries; empty plan on equality -/

theorem instName_eq_some (s : BuildStep) (m : String)
    (h : instName s = some m) : stepName s = m := by
  cases s <;> simp_all [instName, stepName]

theorem diffStep_instName (g : List (String × ResolvedDependency))
    (lib : List (String × LibEntry)) (n : String) (s : BuildStep)
    (h : diffStep g lib n = some s) : instName s = some n := by
  cases h1 : alookup n g with
  | none =>
    simp only [diffStep, h1] at h
    exact absurd h (by simp)
  | some rd =>
    cases h2 : alookup n lib with
    | none =>
      simp only [diffStep, h1, h2] at h
      injection h with h
      rw [← h]
      rfl
    | some e =>
      simp only [diffStep, h1, h2] at h
      by_cases h3 : (decide (e.version = rd.version)
          && decide (e.content_hash = rd.content_hash)) = true
      · rw [if_pos h3] at h
        exact absurd h (by simp)
      · rw [if_neg h3] at h
        injection h with h
        rw [← h]
        rfl

theorem kahnLoop_subset (g : List (String × ResolvedDependency)) :
    ∀ fuel done, (∀ x ∈ done, x ∈ keysOf g) →
      ∀ x ∈ kahnLoop g fuel done, x ∈ keysOf g := by
  intro fuel
  induction fuel with
  | zero => intro done h; exact h
  | succ n ih =>
    intro done h
    simp only [kahnLoop]
    by_cases he : (kahnStep g done).isEmpty = true
    · rw [if_pos he]; exact h
    · rw [if_neg he]
      apply ih
      intro x hx
      rcases List.mem_append.mp hx with hx | hx
      · exact h x hx
      · exact (kahnStep_sublist g done).subset hx

theorem topoOrder_subset (g : List (String × ResolvedDependency)) :
    ∀ x ∈ topoOrder g, x ∈ keysOf g := by
  intro x hx
  exact kahnLoop_subset g g.length []
    (fun y hy => absurd hy (List.not_mem_nil y)) x hx

theorem fullOrd_subset (g : List (String × ResolvedDependency)) :
    ∀ x ∈ fullOrd g, x ∈ keysOf g := by
  intro x hx
  rcases List.mem_append.mp hx with hx | hx
  · exact topoOrder_subset g x hx
  · exact (List.mem_filter.mp hx).1

theorem keys_filterMap_lib (lib : List (String × LibEntry)) :
    ∀ l : List String, (∀ n ∈ l, n ∈ keysOf lib) →
      keysOf (l.filterMap
        (fun n => (alookup n lib).map (fun e => (n, libRd n e)))) = l := by
  intro l
  induction l with
  | nil => intro _; rfl
  | cons n rest ih =>
    intro h
    obtain ⟨e, he⟩ := alookup_isSome_of_mem_keys n lib (h n (List.mem_cons_self _ _))
    rw [List.filterMap_cons, he]
    simp only [Option.map_some']
    show n :: keysOf (rest.filterMap
      (fun n => (alookup n lib).map (fun e => (n, libRd n e)))) = n :: rest
    rw [ih (fun m hm => h m (List.mem_cons_of_mem _ hm))]

theorem keys_removedGraph (res : Resolution) (lib : List (String × LibEntry)) :
    keysOf (removedGraph res lib)
      = (sortDedup (keysOf lib)).filter
          (fun n => !decide (n ∈ keysOf res.graph)) := by
  unfold removedGraph
  apply keys_filterMap_lib
  intro n hn
  exact (mem_sortDedup_iff _ _).mp (List.mem_filter.mp hn).1

theorem removedGraph_keys_nodup (res : Resolution)
    (lib : List (String × LibEntry)) :
    (keysOf (removedGraph res lib)).Nodup := by
  rw [keys_removedGraph]
  exact (sortDedup_nodup _).filter _

theorem alookup_removedGraph (res : Resolution) (lib : List (String × LibEntry))
    (p : String) (e : LibEntry)
    (hpk : p ∈ keysOf (removedGraph res lib)) (he : alookup p lib = some e) :
    alookup p (removedGraph res lib) = some (libRd p e) := by
  apply mem_alookup_nodup _ _ _ (removedGraph_keys_nodup res lib)
  rw [keys_removedGraph] at hpk
  unfold removedGraph
  apply List.mem_filterMap.mpr
  exact ⟨p, hpk, by rw [he]; rfl⟩

theorem map_name_any (l : List String) :
    ((l.map (fun d => ({ name := d, req := VersionRequirement.any } : Dep))).map
      Dep.name) = l := by
  induction l with
  | nil => rfl
  | cons x xs ih => simp [ih]

theorem depNames_libRd (n : String) (e : LibEntry) :
    depNames (libRd n e) = e.direct_dependencies := by
  show ((e.direct_dependencies.map
      (fun d => ({ name := d, req := VersionRequirement.any } : Dep))).map
    Dep.name) = e.direct_dependencies
  exact map_name_any e.direct_dependencies

theorem fullOrd_nodup (g : List (String × ResolvedDependency))
    (hnd : (keysOf g).Nodup) : (fullOrd g).Nodup := by
  unfold fullOrd
  rw [List.nodup_append]
  refine ⟨(topoOrder_inv hnd).1, hnd.filter _, ?_⟩
  intro a ha hb
  have h2 := (List.mem_filter.mp hb).2
  simp [ha] at h2

theorem pos_reverse {α : Type} [DecidableEq α] :
    ∀ (l : List α) (a : α), l.Nodup → a ∈ l →
      pos a l.reverse = l.length - 1 - pos a l := by
  intro l
  induction l with
  | nil => intro a _ h; simp at h
  | cons x xs ih =>
    intro a hnd ha
    rcases List.nodup_cons.mp hnd with ⟨hx, hxs⟩
    by_cases hxa : x = a
    · subst hxa
      rw [List.reverse_cons,
        pos_append_right x xs.reverse [x] (fun hmem => hx (List.mem_reverse.mp hmem))]
      simp [pos, List.length_reverse]
    · have haxs : a ∈ xs := by
        rcases List.mem_cons.mp ha with h | h
        · exact absurd h.symm hxa
        · exact h
      rw [List.reverse_cons,
        pos_append_left a xs.reverse [x] (List.mem_reverse.mpr haxs),
        ih a hxs haxs]
      have hlt := pos_lt_length a xs haxs
      simp only [pos, List.length_cons]
      rw [if_neg hxa]
      omega

/-- Claim C5: Sync emits no BuildStep for a package present in both the
Resolution and the Library with identical version and content hash; in
particular, when the Library snapshot equals the Resolution's packages (same
names, versions and content hashes), the BuildPlan is empty. -/
theorem rv_C5 (res : Resolution) (lib : List (String × LibEntry)) (prune : Bool) :
    (∀ n rd e, alookup n res.graph = some rd → alookup n lib = some e →
       e.version = rd.version → e.content_hash = rd.content_hash →
       ∀ s ∈ sync res lib prune, stepName s ≠ n)
    ∧ ((∀ n, (alookup n res.graph).map (fun rd => (rd.version, rd.content_hash))
          = (alookup n lib).map (fun e => (e.version, e.content_hash))) →
       sync res lib prune = []) := by
  constructor
  · intro n rd e hg hl hv hh s hs hname
    rcases List.mem_append.mp hs with hs | hs
    · obtain ⟨m, hm, hdm⟩ := List.mem_filterMap.mp hs
      have hsm : stepName s = m := instName_eq_some s m (diffStep_instName _ _ _ _ hdm)
      rw [hname] at hsm
      rw [← hsm] at hdm
      have hnone : diffStep res.graph lib n = none := by
        simp only [diffStep, hg, hl]
        rw [if_pos]
        simp [hv, hh]
      rw [hnone] at hdm
      exact absurd hdm (by simp)
    · have hnk : n ∈ keysOf res.graph := alookup_mem_keys n res.graph rd hg
      cases prune with
      | false => simp at hs
      | true =>
        simp only [if_pos] at hs
        obtain ⟨m, hm, hms⟩ := List.mem_map.mp hs
        have hsm : stepName s = m := by rw [← hms]; rfl
        rw [hname] at hsm
        rw [← hsm] at hm
        have hmk : n ∈ keysOf (removedGraph res lib) :=
          fullOrd_subset _ _ (List.mem_reverse.mp hm)
        rw [keys_removedGraph] at hmk
        have h3 := (List.mem_filter.mp hmk).2
        simp [hnk] at h3
  · intro heq
    have hinst : (fullOrd res.graph).filterMap (diffStep res.graph lib) = [] := by
      rw [List.filterMap_eq_nil_iff]
      intro m hm
      have hmk : m ∈ keysOf res.graph := fullOrd_subset res.graph m hm
      obtain ⟨rd, hrd⟩ := alookup_isSome_of_mem_keys m res.graph hmk
      have h2 := heq m
      rw [hrd] at h2
      cases hl2 : alookup m lib with
      | none => rw [hl2] at h2; simp at h2
      | some e =>
        rw [hl2] at h2
        simp only [Option.map_some'] at h2
        injection h2 with h2
        rw [Prod.mk.injEq] at h2
        simp [diffStep, hrd, hl2, ← h2.1, ← h2.2]
    have hrem : (sortDedup (keysOf lib)).filter
        (fun n => !decide (n ∈ keysOf res.graph)) = [] := by
      rw [List.filter_eq_nil_iff]
      intro n hn
      have hnl : n ∈ keysOf lib := (mem_sortDedup_iff _ _).mp hn
      obtain ⟨e, he⟩ := alookup_isSome_of_mem_keys n lib hnl
      have h2 := heq n
      rw [he] at h2
      cases hg2 : alookup n res.graph with
      | none => rw [hg2] at h2; simp at h2
      | some rd =>
        have hk := alookup_mem_keys _ _ _ hg2
        simp [hk]
    have hrg : removedGraph res lib = [] := by
      unfold removedGraph
      rw [hrem]
      rfl
    show (fullOrd res.graph).filterMap (diffStep res.graph lib)
      ++ (if prune then (fullOrd (removedGraph res lib)).reverse.map BuildStep.remove
          else []) = []
    rw [hinst, hrg]
    cases prune <;> rfl

/-- Claim C5 witness: a library identical to the one-package Resolution
`A@1.2` yields an empty plan. -/
theorem rv_C5_witness :
    sync { root := ["A"], graph := [("A", exRdA)] }
        [("A", { version := [1, 2], content_hash := "hA", path := "lib/A", direct_dependencies := [] })]
        true = [] :=
  (rv_C5 { root := ["A"], graph := [("A", exRdA)] }
      [("A", { version := [1, 2], content_hash := "hA", path := "lib/A", direct_dependencies := [] })] true).2
    (by
      intro n
      by_cases h : "A" = n
      · simp [alookup, h, exRdA]
      · simp [alookup, h])

/-! ### Claim C6: plan ordering respects the dependency graph -/

theorem diffStep_remName (g : List (String × ResolvedDependency))
    (lib : List (String × LibEntry)) (n : String) (s : BuildStep)
    (h : diffStep g lib n = some s) : remName s = none := by
  cases h1 : alookup n g with
  | none =>
    simp only [diffStep, h1] at h
    exact absurd h (by simp)
  | some rd =>
    cases h2 : alookup n lib with
    | none =>
      simp only [diffStep, h1, h2] at h
      injection h with h
      rw [← h]
      rfl
    | some e =>
      simp only [diffStep, h1, h2] at h
      by_cases h3 : (decide (e.version = rd.version)
          && decide (e.content_hash = rd.content_hash)) = true
      · rw [if_pos h3] at h
        exact absurd h (by simp)
      · rw [if_neg h3] at h
        injection h with h
        rw [← h]
        rfl

theorem installOrder_filterMap (g : List (String × ResolvedDependency))
    (lib : List (String × LibEntry)) :
    ∀ ord : List String, ((ord.filterMap (diffStep g lib)).filterMap instName)
      = ord.filter (fun n => (diffStep g lib n).isSome) := by
  intro ord
  induction ord with
  | nil => rfl
  | cons m rest ih =>
    cases hd : diffStep g lib m with
    | none => simp [List.filterMap_cons, hd, ih]
    | some s =>
      have hn := diffStep_instName g lib m s hd
      simp [List.filterMap_cons, hd, hn, ih]

theorem removeOrder_filterMap (g : List (String × ResolvedDependency))
    (lib : List (String × LibEntry)) :
    ∀ ord : List String, ((ord.filterMap (diffStep g lib)).filterMap remName) = [] := by
  intro ord
  induction ord with
  | nil => rfl
  | cons m rest ih =>
    cases hd : diffStep g lib m with
    | none => simp [List.filterMap_cons, hd, ih]
    | some s =>
      have hn := diffStep_remName g lib m s hd
      simp [List.filterMap_cons, hd, hn, ih]

theorem filterMap_remName_removes :
    ∀ l : List String, ((l.map BuildStep.remove).filterMap remName) = l := by
  intro l
  induction l with
  | nil => rfl
  | cons x xs ih => simp [List.filterMap_cons, remName, ih]

theorem installOrder_sync (res : Resolution) (lib : List (String × LibEntry))
    (prune : Bool) :
    installOrder (sync res lib prune)
      = (fullOrd res.graph).filter (fun n => (diffStep res.graph lib n).isSome) := by
  unfold installOrder sync
  rw [List.filterMap_append, installOrder_filterMap]
  have h2 : ((if prune then
      (fullOrd (removedGraph res lib)).reverse.map BuildStep.remove
      else []).filterMap instName) = [] := by
    cases prune
    · simp
    · simp only [if_pos]
      rw [List.filterMap_map]
      apply List.filterMap_eq_nil_iff.mpr
      intro a _
      rfl
  rw [h2, List.append_nil]

theorem removeOrder_sync (res : Resolution) (lib : List (String × LibEntry))
    (prune : Bool) :
    removeOrder (sync res lib prune)
      = (if prune then (fullOrd (removedGraph res lib)).reverse else []) := by
  unfold removeOrder sync
  rw [List.filterMap_append, removeOrder_filterMap, List.nil_append]
  cases prune
  · simp
  · simp only [if_pos]
    exact filterMap_remName_removes _

theorem pos_filter_lt {α : Type} [DecidableEq α] (f : α → Bool) :
    ∀ (l : List α) (a b : α), a ≠ b → a ∈ l.filter f → b ∈ l.filter f →
      pos a l < pos b l → pos a (l.filter f) < pos b (l.filter f) := by
  intro l
  induction l with
  | nil => intro a b _ ha; simp at ha
  | cons x xs ih =>
    intro a b hne ha hb hlt
    by_cases hfx : f x = true
    · rw [List.filter_cons_of_pos hfx] at ha hb ⊢
      by_cases hxa : x = a
      · have hxb : ¬ x = b := fun h2 => hne (hxa.symm.trans h2)
        simp [pos, hxa, hxb, hne]
      · by_cases hxb : x = b
        · simp only [pos] at hlt
          rw [if_neg hxa, if_pos hxb] at hlt
          omega
        · simp only [pos] at hlt
          rw [if_neg hxa, if_neg hxb] at hlt
          have ha2 : a ∈ xs.filter f := by
            rcases List.mem_cons.mp ha with h2 | h2
            · exact absurd h2.symm hxa
            · exact h2
          have hb2 : b ∈ xs.filter f := by
            rcases List.mem_cons.mp hb with h2 | h2
            · exact absurd h2.symm hxb
            · exact h2
          simp only [pos]
          rw [if_neg hxa, if_neg hxb]
          exact Nat.succ_lt_succ (ih a b hne ha2 hb2 (by omega))
    · have hfx2 : ¬ f x = true := hfx
      rw [List.filter_cons_of_neg hfx2] at ha hb ⊢
      have hxa : ¬ x = a := by
        intro h2
        have hfa := (List.mem_filter.mp ha).2
        rw [← h2] at hfa
        exact hfx hfa
      have hxb : ¬ x = b := by
        intro h2
        have hfb := (List.mem_filter.mp hb).2
        rw [← h2] at hfb
        exact hfx hfb
      simp only [pos] at hlt
      rw [if_neg hxa, if_neg hxb] at hlt
      exact ih a b hne ha hb (by omega)

theorem edge_pos_lt_fullOrd {g : List (String × ResolvedDependency)}
    (hnd : (keysOf g).Nodup) (hc : kahnComplete g = true)
    {p d : String} {rd : ResolvedDependency}
    (hp : alookup p g = some rd) (hd : d ∈ depNames rd) (hdk : d ∈ keysOf g) :
    pos d (fullOrd g) < pos p (fullOrd g) := by
  have h1 : pos d (topoOrder g) < pos p (topoOrder g) :=
    edge_pos_lt hnd hc ⟨rd, hp, hd⟩ hdk
  have hdt : d ∈ topoOrder g := kahnComplete_mem hc hdk
  have hpt : p ∈ topoOrder g := kahnComplete_mem hc (alookup_mem_keys _ _ _ hp)
  unfold fullOrd
  rw [pos_append_left d _ _ hdt, pos_append_left p _ _ hpt]
  exact h1

/-- Claim C6: in every BuildPlan over a Resolution satisfying its invariant
(unique package names, graph passing the acyclicity check), Install/Update
steps follow a dependencies-first topological order of the Resolution's
graph — whenever package `p` directly depends on `d` and both have
Install/Update steps, `d`'s step comes first — and Remove steps follow the
reverse of a topological order of the removed packages' dependency graph
(itself required acyclic, as installed state produced by earlier
Resolutions): whenever a removed package `p` used `d` among its recorded
direct dependencies and both have Remove steps, `p` is removed before
`d`. -/
theorem rv_C6 (res : Resolution) (lib : List (String × LibEntry)) (prune : Bool)
    (hnd : (keysOf res.graph).Nodup) (hc : kahnComplete res.graph = true) :
    (∀ p rd d, alookup p res.graph = some rd → d ∈ depNames rd →
       d ∈ installOrder (sync res lib prune) →
       p ∈ installOrder (sync res lib prune) →
         pos d (installOrder (sync res lib prune))
           < pos p (installOrder (sync res lib prune)))
    ∧ (kahnComplete (removedGraph res lib) = true →
       ∀ p e d, alookup p lib = some e → d ∈ e.direct_dependencies →
         p ∈ removeOrder (sync res lib prune) →
         d ∈ removeOrder (sync res lib prune) →
           pos p (removeOrder (sync res lib prune))
             < pos d (removeOrder (sync res lib prune))) := by
  constructor
  · intro p rd d hp hd hdi hpi
    rw [installOrder_sync] at hdi hpi ⊢
    have hdk : d ∈ keysOf res.graph :=
      fullOrd_subset _ d (List.mem_filter.mp hdi).1
    have hlt : pos d (fullOrd res.graph) < pos p (fullOrd res.graph) :=
      edge_pos_lt_fullOrd hnd hc hp hd hdk
    have hne : d ≠ p := by
      intro he
      rw [he] at hlt
      exact absurd hlt (lt_irrefl _)
    exact pos_filter_lt _ _ d p hne hdi hpi hlt
  · intro hcr p e d hpe hd hpr hdr
    rw [removeOrder_sync] at hpr hdr ⊢
    cases prune
    · simp at hpr
    · simp only [if_pos] at hpr hdr ⊢
      have hpm : p ∈ fullOrd (removedGraph res lib) := List.mem_reverse.mp hpr
      have hdm : d ∈ fullOrd (removedGraph res lib) := List.mem_reverse.mp hdr
      have hpk : p ∈ keysOf (removedGraph res lib) := fullOrd_subset _ _ hpm
      have hdk : d ∈ keysOf (removedGraph res lib) := fullOrd_subset _ _ hdm
      have hrg := alookup_removedGraph res lib p e hpk hpe
      have hedge : d ∈ depNames (libRd p e) := by
        rw [depNames_libRd]
        exact hd
      have hndr := removedGraph_keys_nodup res lib
      have hlt : pos d (fullOrd (removedGraph res lib))
          < pos p (fullOrd (removedGraph res lib)) :=
        edge_pos_lt_fullOrd hndr hcr hrg hedge hdk
      have hfnd : (fullOrd (removedGraph res lib)).Nodup := fullOrd_nodup _ hndr
      rw [pos_reverse _ p hfnd hpm, pos_reverse _ d hfnd hdm]
      have h1 := pos_lt_length p _ hpm
      have h2 := pos_lt_length d _ hdm
      omega

/-- Claim C6 witness: syncing the §8 Resolution against a library holding an
outdated `B` and the stale pair `D` (depending on `E`) and `E`, with prune
enabled, updates `B` before installing its dependent `A`, and removes the
dependent `D` before the `E` it used. -/
theorem rv_C6_witness :
    (pos "B" (installOrder (sync exRes exLib true))
      < pos "A" (installOrder (sync exRes exLib true)))
    ∧ (pos "D" (removeOrder (sync exRes exLib true))
      < pos "E" (removeOrder (sync exRes exLib true))) :=
  ⟨(rv_C6 exRes exLib true (by decide) (by decide)).1 "A" exRdA "B"
     (by decide) (by decide) (by decide) (by decide),
   (rv_C6 exRes exLib true (by decide) (by decide)).2 (by decide) "D" exLibD "E"
     (by decide) (by decide) (by decide) (by decide)⟩

/-! ### Claim C7: determinism / canonical-order independence -/

theorem reqsFor_perm (roots1 roots2 : List Dep)
    (sel : List (String × ResolvedDependency)) (p : String)
    (hperm : roots1.Perm roots2) :
    (reqsFor roots1 sel p).Perm (reqsFor roots2 sel p) := by
  unfold reqsFor
  exact List.Perm.append_right _ ((hperm.filter _).map _)

theorem satisfiesAll_congr (roots1 roots2 : List Dep)
    (sel : List (String × ResolvedDependency)) (p : String)
    (hperm : roots1.Perm roots2) :
    ∀ v, satisfiesAll (reqsFor roots1 sel p) v
      = satisfiesAll (reqsFor roots2 sel p) v :=
  fun _ => perm_all _ (reqsFor_perm roots1 roots2 sel p hperm)

theorem requirersFor_eq (roots1 roots2 : List Dep)
    (sel : List (String × ResolvedDependency)) (p : String)
    (hperm : roots1.Perm roots2) :
    requirersFor roots1 sel p = requirersFor roots2 sel p := by
  unfold requirersFor
  rw [perm_any (fun d => decide (d.name = p)) hperm]

theorem canonNames_eq (roots1 roots2 : List Dep)
    (sel : List (String × ResolvedDependency)) (hperm : roots1.Perm roots2) :
    canonNames roots1 sel = canonNames roots2 sel := by
  unfold canonNames
  apply sortDedup_perm_eq
  exact List.Perm.append_right _ (hperm.map _)

theorem decideFresh_congr (repos : List Repo) (plat : String)
    (sel : List (String × ResolvedDependency)) (p : String)
    (reqs1 reqs2 : List VersionRequirement) (requirers : List String)
    (hsat : ∀ v, satisfiesAll reqs1 v = satisfiesAll reqs2 v)
    (hes : eligibleSat plat reqs1 = eligibleSat plat reqs2) :
    decideFresh repos plat sel p reqs1 requirers
      = decideFresh repos plat sel p reqs2 requirers := by
  unfold decideFresh
  rw [hes]
  cases halo : alookup p sel with
  | none => rfl
  | some cur =>
    dsimp only
    rw [hsat cur.version]

theorem decideOne_congr (roots1 roots2 : List Dep) (repos : List Repo)
    (lock : Option Lockfile) (plat : String) (excl : List String)
    (sel : List (String × ResolvedDependency)) (p : String)
    (hperm : roots1.Perm roots2) :
    decideOne roots1 repos lock plat excl sel p
      = decideOne roots2 repos lock plat excl sel p := by
  have hsat := satisfiesAll_congr roots1 roots2 sel p hperm
  have hreq := requirersFor_eq roots1 roots2 sel p hperm
  have hes : eligibleSat plat (reqsFor roots1 sel p)
      = eligibleSat plat (reqsFor roots2 sel p) := by
    funext c
    unfold eligibleSat
    rw [hsat c.version]
  simp only [decideOne]
  rw [hreq]
  cases hl : lockEntry lock p with
  | none => exact decideFresh_congr repos plat sel p _ _ _ hsat hes
  | some lrd =>
    dsimp only
    rw [hsat lrd.version]
    by_cases hc : ¬ p ∈ excl ∧ satisfiesAll (reqsFor roots2 sel p) lrd.version = true
    · rw [if_pos hc, if_pos hc]
    · rw [if_neg hc, if_neg hc]
      exact decideFresh_congr repos plat sel p _ _ _ hsat hes

theorem decideAll_congr (roots1 roots2 : List Dep) (repos : List Repo)
    (lock : Option Lockfile) (plat : String) (excl : List String)
    (sel : List (String × ResolvedDependency)) (hperm : roots1.Perm roots2) :
    ∀ names, decideAll roots1 repos lock plat excl sel names
      = decideAll roots2 repos lock plat excl sel names := by
  intro names
  induction names with
  | nil => rfl
  | cons p rest ih =>
    simp only [decideAll]
    rw [decideOne_congr roots1 roots2 repos lock plat excl sel p hperm, ih]

theorem pass_congr (roots1 roots2 : List Dep) (repos : List Repo)
    (lock : Option Lockfile) (plat : String) (excl : List String)
    (sel : List (String × ResolvedDependency)) (hperm : roots1.Perm roots2) :
    resolvePass roots1 repos lock plat excl sel = resolvePass roots2 repos lock plat excl sel := by
  unfold resolvePass
  rw [canonNames_eq roots1 roots2 sel hperm,
      decideAll_congr roots1 roots2 repos lock plat excl sel hperm]

theorem resolveLoop_congr (roots1 roots2 : List Dep) (repos : List Repo)
    (lock : Option Lockfile) (plat : String) (excl : List String)
    (hperm : roots1.Perm roots2) :
    ∀ fuel sel, resolveLoop roots1 repos lock plat excl fuel sel
      = resolveLoop roots2 repos lock plat excl fuel sel := by
  intro fuel
  induction fuel with
  | zero => intro sel; rfl
  | succ n ih =>
    intro sel
    simp only [resolveLoop]
    rw [pass_congr roots1 roots2 repos lock plat excl sel hperm]
    cases resolvePass roots2 repos lock plat excl sel with
    | error e => rfl
    | ok sel2 =>
      dsimp only
      by_cases h : sel2 = sel
      · rw [if_pos h, if_pos h]
      · rw [if_neg h, if_neg h, ih sel2]

theorem fuelBound_eq (roots1 roots2 : List Dep) (repos : List Repo)
    (hperm : roots1.Perm roots2) :
    fuelBound roots1 repos = fuelBound roots2 repos := by
  unfold fuelBound
  rw [sortDedup_perm_eq _ _ (List.Perm.append_right _ (hperm.map _))]

/-- Claim C7: the Resolver is deterministic — it is a pure function of its
inputs, and beyond that its output does not depend on the presentation
order of the root dependency list: any two root lists that are permutations
of each other (in particular, identical lists) produce identical
Resolutions, because every ordering-sensitive intermediate (worklist,
constraint set, requirer set, root set) is canonicalized before use. -/
theorem rv_C7 (roots1 roots2 : List Dep) (repos : List Repo)
    (lock : Option Lockfile) (plat : String) (excl : List String)
    (hperm : roots1.Perm roots2) :
    resolve roots1 repos lock plat excl = resolve roots2 repos lock plat excl := by
  unfold resolve
  rw [fuelBound_eq roots1 roots2 repos hperm,
      resolveLoop_congr roots1 roots2 repos lock plat excl hperm
        (fuelBound roots2 repos) [],
      sortDedup_perm_eq _ _ (hperm.map _)]

/-- Claim C7 witness: resolving with roots `[A >= 1.0, C any]` and with the
same roots in the opposite order yields identical Resolutions. -/
theorem rv_C7_witness :
    resolve [{ name := "A", req := .atLeast [1, 0] }, { name := "C", req := .any }]
        [exRepo] none "linux" []
      = resolve [{ name := "C", req := .any }, { name := "A", req := .atLeast [1, 0] }]
        [exRepo] none "linux" [] :=
  rv_C7 _ _ [exRepo] none "linux" [] (List.Perm.swap _ _ _)
